import Mathlib

/-!
Verification development for the gustav goal-directed task planner and
workflow engine.

The development shallowly embeds the core of the repository:
the JSON-like state document and pointer paths (`src/path.rs`,
`src/system/mod.rs`), structural diffing and patch application (the
`json_patch` and `jsonptr` crates, whose behaviour is pinned by the
repository's own tests in `src/extract/view.rs`), the `Pointer`
extractor (`src/extract/view.rs`), tasks, intents and the domain router
(`src/task/mod.rs`, `src/task/intent.rs`, `src/worker/domain.rs`), and
the HTN planner (`src/worker/planner.rs`).

Modelling conventions:
* serde_json values are modelled by `ValueT`; objects are kept in
  canonical form (fields sorted by key, no duplicate keys), matching
  serde_json's default `BTreeMap` representation, so structural equality
  of `ValueT` coincides with document equality.
* numbers are modelled as `Int` (no claim touches floating point);
* machine integers (`u8` priority, `u32` stack_len) are modelled as
  `Nat`; no claim exercises overflow;
* the typed payload `T` of `Pointer<T>`/`View<T>` is instantiated at the
  raw value type, i.e. with the identity (lossless) serde codec;
* Rust functions that can loop for unboundedly long (the planner search
  loop and the mutually recursive `try_task`) take an explicit fuel
  argument and return `Option.none` when the fuel runs out; theorems
  about them either quantify over the fuel or use a concrete
  sufficient fuel;
* Rust panics inside the planner are modelled by the dedicated error
  constructor `PlanErr.panicked`; panics inside user methods are
  modelled by the `PanicOr` sum type.
-/

/-- A serde_json-like document value (state document of §3 of the spec). -/
inductive ValueT where
  | null
  | bool (b : Bool)
  | num (n : Int)
  | str (s : String)
  | arr (items : List ValueT)
  | obj (fields : List (String × ValueT))

mutual

/-- Structural (boolean) equality on values. -/
def beqV : ValueT → ValueT → Bool
  | .null, .null => true
  | .bool a, .bool b => a == b
  | .num a, .num b => a == b
  | .str a, .str b => a == b
  | .arr a, .arr b => beqL a b
  | .obj a, .obj b => beqF a b
  | _, _ => false

/-- Structural equality on lists of values. -/
def beqL : List ValueT → List ValueT → Bool
  | [], [] => true
  | a :: as', b :: bs' => beqV a b && beqL as' bs'
  | _, _ => false

/-- Structural equality on object field lists. -/
def beqF : List (String × ValueT) → List (String × ValueT) → Bool
  | [], [] => true
  | (k, v) :: as', (k2, v2) :: bs' => k == k2 && beqV v v2 && beqF as' bs'
  | _, _ => false

end

mutual

theorem beqV_sound : ∀ a b, beqV a b = true → a = b
  | .null, .null, _ => rfl
  | .bool _, .bool _, h => by
      simp only [beqV, beq_iff_eq] at h; rw [h]
  | .num _, .num _, h => by
      simp only [beqV, beq_iff_eq] at h; rw [h]
  | .str _, .str _, h => by
      simp only [beqV, beq_iff_eq] at h; rw [h]
  | .arr a, .arr b, h => by
      simp only [beqV] at h
      rw [beqL_sound a b h]
  | .obj a, .obj b, h => by
      simp only [beqV] at h
      rw [beqF_sound a b h]
  | .null, .bool _, h | .null, .num _, h | .null, .str _, h | .null, .arr _, h
  | .null, .obj _, h
  | .bool _, .null, h | .bool _, .num _, h | .bool _, .str _, h | .bool _, .arr _, h
  | .bool _, .obj _, h
  | .num _, .null, h | .num _, .bool _, h | .num _, .str _, h | .num _, .arr _, h
  | .num _, .obj _, h
  | .str _, .null, h | .str _, .bool _, h | .str _, .num _, h | .str _, .arr _, h
  | .str _, .obj _, h
  | .arr _, .null, h | .arr _, .bool _, h | .arr _, .num _, h | .arr _, .str _, h
  | .arr _, .obj _, h
  | .obj _, .null, h | .obj _, .bool _, h | .obj _, .num _, h | .obj _, .str _, h
  | .obj _, .arr _, h => by simp [beqV] at h

theorem beqL_sound : ∀ a b, beqL a b = true → a = b
  | [], [], _ => rfl
  | x :: xs, y :: ys, h => by
      simp only [beqL, Bool.and_eq_true] at h
      rw [beqV_sound x y h.1, beqL_sound xs ys h.2]
  | [], _ :: _, h | _ :: _, [], h => by simp [beqL] at h

theorem beqF_sound : ∀ a b, beqF a b = true → a = b
  | [], [], _ => rfl
  | (k, v) :: xs, (k2, v2) :: ys, h => by
      simp only [beqF, Bool.and_eq_true, beq_iff_eq] at h
      rw [h.1.1, beqV_sound v v2 h.1.2, beqF_sound xs ys h.2]
  | [], _ :: _, h | _ :: _, [], h => by simp [beqF] at h

end

mutual

theorem beqV_refl : ∀ a, beqV a a = true
  | .null => rfl
  | .bool _ => by simp [beqV]
  | .num _ => by simp [beqV]
  | .str _ => by simp [beqV]
  | .arr a => by simp only [beqV]; exact beqL_refl a
  | .obj a => by simp only [beqV]; exact beqF_refl a

theorem beqL_refl : ∀ a, beqL a a = true
  | [] => rfl
  | x :: xs => by
      simp only [beqL, Bool.and_eq_true]
      exact ⟨beqV_refl x, beqL_refl xs⟩

theorem beqF_refl : ∀ a, beqF a a = true
  | [] => rfl
  | (k, v) :: xs => by
      simp only [beqF, Bool.and_eq_true, beq_self_eq_true]
      exact ⟨⟨trivial, beqV_refl v⟩, beqF_refl xs⟩

end

instance : DecidableEq ValueT := fun a b =>
  if h : beqV a b = true then .isTrue (beqV_sound a b h)
  else .isFalse (fun he => h (he ▸ beqV_refl a))

theorem beqV_eq_decide (a b : ValueT) : beqV a b = decide (a = b) := by
  rcases h : beqV a b with _ | _
  · rcases hd : decide (a = b) with _ | _
    · rfl
    · have he := of_decide_eq_true hd
      subst he
      rw [beqV_refl a] at h
      exact absurd h (by simp)
  · exact (decide_eq_true (beqV_sound a b h)).symm

/-- Lookup a key in an object field list (serde_json `Map::get`). -/
def lookupF (k : String) : List (String × ValueT) → Option ValueT
  | [] => Option.none
  | (k2, v) :: rest => if k = k2 then some v else lookupF k rest

/-- Replace the value at an existing key, leaving other fields alone. -/
def objSet (k : String) (v : ValueT) : List (String × ValueT) → List (String × ValueT)
  | [] => []
  | (k2, v2) :: rest => if k = k2 then (k2, v) :: rest else (k2, v2) :: objSet k v rest

/-- Character-level string order (Rust's byte-lexicographic `Ord` on ASCII ids). -/
def ltChars : List Char → List Char → Bool
  | [], [] => false
  | [], _ :: _ => true
  | _ :: _, [] => false
  | a :: as', b :: bs' =>
      if a.toNat < b.toNat then true
      else if b.toNat < a.toNat then false
      else ltChars as' bs'

def ltStr (a b : String) : Bool := ltChars a.data b.data

/-- Insert or replace a key, keeping the canonical (sorted) field order of
serde_json's `BTreeMap`. -/
def objInsert (k : String) (v : ValueT) : List (String × ValueT) → List (String × ValueT)
  | [] => [(k, v)]
  | (k2, v2) :: rest =>
      if k = k2 then (k2, v) :: rest
      else if ltStr k k2 then (k, v) :: (k2, v2) :: rest
      else (k2, v2) :: objInsert k v rest

/-- Remove a key from an object field list; no-op when absent. -/
def objRemove (k : String) : List (String × ValueT) → List (String × ValueT)
  | [] => []
  | (k2, v2) :: rest => if k = k2 then rest else (k2, v2) :: objRemove k rest

def digitVal (c : Char) : Option Nat :=
  if 48 ≤ c.toNat ∧ c.toNat ≤ 57 then some (c.toNat - 48) else Option.none

def parseDigits : List Char → Nat → Option Nat
  | [], acc => some acc
  | c :: cs, acc =>
      match digitVal c with
      | some d => parseDigits cs (acc * 10 + d)
      | Option.none => Option.none

/-- Parse an RFC 6901 array-index token: canonical decimal, no leading
zeros (the `jsonptr` crate's index parsing). -/
def parseIdx (s : String) : Option Nat :=
  match s.data with
  | [] => Option.none
  | ['0'] => some 0
  | c :: cs =>
      if c = '0' then Option.none
      else
        match digitVal c with
        | some d => parseDigits cs d
        | Option.none => Option.none

def digitChar (d : Nat) : Char :=
  if d = 0 then '0' else if d = 1 then '1' else if d = 2 then '2'
  else if d = 3 then '3' else if d = 4 then '4' else if d = 5 then '5'
  else if d = 6 then '6' else if d = 7 then '7' else if d = 8 then '8' else '9'

/-- Digits of a positive number, most significant first; the first
argument is structural fuel (any fuel ≥ the number itself is exact). -/
def natDigits : Nat → Nat → List Char → List Char
  | _, 0, acc => acc
  | 0, _ + 1, acc => acc
  | fuel + 1, n + 1, acc =>
      natDigits fuel ((n + 1) / 10) (digitChar ((n + 1) % 10) :: acc)

/-- Decimal rendering of an array index (`toString` on the Rust side). -/
def natToStr (n : Nat) : String :=
  if n = 0 then "0" else String.mk (natDigits n n [])

/-- Resolution failures of the `jsonptr` crate's `Pointer::resolve`. -/
inductive ResolveErr where
  | notFound
  | outOfBounds
  | failedToParseIndex
  | unreachable
deriving DecidableEq, Repr

/-- Resolve a pointer path (list of tokens) against a document
(`jsonptr` `Pointer::resolve`, used by `Path`/`System` in the source). -/
def resolveV : List String → ValueT → Except ResolveErr ValueT
  | [], v => .ok v
  | t :: ts, .obj fs =>
      match lookupF t fs with
      | some v => resolveV ts v
      | Option.none => .error .notFound
  | t :: ts, .arr xs =>
      match parseIdx t with
      | some i =>
          if h : i < xs.length then resolveV ts (xs.get ⟨i, h⟩)
          else .error .outOfBounds
      | Option.none => .error .failedToParseIndex
  | _ :: _, _ => .error .unreachable

/-- An RFC 6902 patch operation. Structural diffing only ever produces
`add`, `remove` and `replace`, and those are the only operations the
planner feeds back into `System::patch`, so `move`/`copy`/`test` are not
modelled. -/
inductive PatchOp where
  | add (path : List String) (v : ValueT)
  | remove (path : List String)
  | replace (path : List String) (v : ValueT)
deriving DecidableEq

/-- A patch is an ordered list of operations (`json_patch::Patch`). -/
abbrev PatchL := List PatchOp

def PatchOp.path : PatchOp → List String
  | .add p _ => p
  | .remove p => p
  | .replace p _ => p

/-- Insert a value at an index of a list, RFC 6902 array-`add` style. -/
def insertIdx' (i : Nat) (v : ValueT) : List ValueT → List ValueT
  | [] => [v]
  | x :: xs => match i with
      | 0 => v :: x :: xs
      | j + 1 => x :: insertIdx' j v xs

/-- RFC 6902 `add` (the `json_patch` crate): insert-or-replace an object
key, insert into an array at an index ≤ length (`-` appends); the parent
must exist. -/
def addAt : List String → ValueT → ValueT → Except String ValueT
  | [], v, _ => .ok v
  | [t], v, .obj fs => .ok (.obj (objInsert t v fs))
  | [t], v, .arr xs =>
      if t = "-" then .ok (.arr (xs ++ [v]))
      else
        match parseIdx t with
        | some i =>
            if i ≤ xs.length then .ok (.arr (insertIdx' i v xs))
            else .error "add index out of bounds"
        | Option.none => .error "invalid array index"
  | t :: ts, v, .obj fs =>
      match lookupF t fs with
      | some child => (addAt ts v child).map (fun c => .obj (objSet t c fs))
      | Option.none => .error "add path not found"
  | t :: ts, v, .arr xs =>
      match parseIdx t with
      | some i =>
          if h : i < xs.length then
            (addAt ts v (xs.get ⟨i, h⟩)).map (fun c => .arr (xs.set i c))
          else .error "add path out of bounds"
      | Option.none => .error "invalid array index"
  | _ :: _, _, _ => .error "add through a scalar"

/-- RFC 6902 `remove`: the target location must exist; removing an array
index shifts the following elements down. -/
def removeAt : List String → ValueT → Except String ValueT
  | [], _ => .error "cannot remove the root"
  | [t], .obj fs =>
      match lookupF t fs with
      | some _ => .ok (.obj (objRemove t fs))
      | Option.none => .error "remove path not found"
  | [t], .arr xs =>
      match parseIdx t with
      | some i =>
          if i < xs.length then .ok (.arr (xs.eraseIdx i))
          else .error "remove index out of bounds"
      | Option.none => .error "invalid array index"
  | t :: ts, .obj fs =>
      match lookupF t fs with
      | some child => (removeAt ts child).map (fun c => .obj (objSet t c fs))
      | Option.none => .error "remove path not found"
  | t :: ts, .arr xs =>
      match parseIdx t with
      | some i =>
          if h : i < xs.length then
            (removeAt ts (xs.get ⟨i, h⟩)).map (fun c => .arr (xs.set i c))
          else .error "remove path out of bounds"
      | Option.none => .error "invalid array index"
  | _ :: _, _ => .error "remove through a scalar"

/-- RFC 6902 `replace`: the target location must exist. -/
def replaceAt : List String → ValueT → ValueT → Except String ValueT
  | [], v, _ => .ok v
  | [t], v, .obj fs =>
      match lookupF t fs with
      | some _ => .ok (.obj (objSet t v fs))
      | Option.none => .error "replace path not found"
  | [t], v, .arr xs =>
      match parseIdx t with
      | some i =>
          if i < xs.length then .ok (.arr (xs.set i v))
          else .error "replace index out of bounds"
      | Option.none => .error "invalid array index"
  | t :: ts, v, .obj fs =>
      match lookupF t fs with
      | some child => (replaceAt ts v child).map (fun c => .obj (objSet t c fs))
      | Option.none => .error "replace path not found"
  | t :: ts, v, .arr xs =>
      match parseIdx t with
      | some i =>
          if h : i < xs.length then
            (replaceAt ts v (xs.get ⟨i, h⟩)).map (fun c => .arr (xs.set i c))
          else .error "replace path out of bounds"
      | Option.none => .error "invalid array index"
  | _ :: _, _, _ => .error "replace through a scalar"

def applyOp (doc : ValueT) : PatchOp → Except String ValueT
  | .add p v => addAt p v doc
  | .remove p => removeAt p doc
  | .replace p v => replaceAt p v doc

/-- Apply a whole patch in order (`json_patch::patch`, `System::patch`);
the embedding is pure so atomicity on failure is automatic. -/
def applyPatch (doc : ValueT) : PatchL → Except String ValueT
  | [] => .ok doc
  | op :: rest =>
      match applyOp doc op with
      | .ok doc' => applyPatch doc' rest
      | .error e => .error e

mutual

/-- Structural diff (`json_patch::diff`). Objects recurse on shared keys
(removes interleaved in left key order, adds for right-only keys after);
arrays recurse on the common prefix, then remove extra left indices
(last first) or add extra right elements in order. The array behaviour
is pinned by the repository tests `it_deletes_a_value_on_a_vec` and
`it_creates_a_value_on_a_vec` in `src/extract/view.rs`. -/
def diffV (p : List String) (l r : ValueT) : PatchL :=
  if beqV l r then []
  else
    match l, r with
    | .obj a, .obj b =>
        diffFields p b a ++
        (b.filterMap fun kv =>
          match lookupF kv.1 a with
          | some _ => Option.none
          | Option.none => some (.add (p ++ [kv.1]) kv.2))
    | .arr a, .arr b =>
        diffItems p 0 a b ++
        (if b.length < a.length then
          ((List.range (a.length - b.length)).reverse.map
            fun k => PatchOp.remove (p ++ [natToStr (b.length + k)]))
        else
          ((List.range (b.length - a.length)).filterMap
            fun k =>
              match resolveV [natToStr (a.length + k)] (.arr b) with
              | .ok v => some (PatchOp.add (p ++ [natToStr (a.length + k)]) v)
              | .error _ => Option.none))
    | _, _ => [.replace p r]

/-- Diff the fields of the left object against the right object. -/
def diffFields (p : List String) (b : List (String × ValueT)) :
    List (String × ValueT) → PatchL
  | [] => []
  | (k, v) :: rest =>
      (match lookupF k b with
       | some rv => diffV (p ++ [k]) v rv
       | Option.none => [.remove (p ++ [k])]) ++ diffFields p b rest

/-- Diff the common prefix of two arrays, index by index. -/
def diffItems (p : List String) (i : Nat) : List ValueT → List ValueT → PatchL
  | x :: xs, y :: ys => diffV (p ++ [natToStr i]) x y ++ diffItems p (i + 1) xs ys
  | _, _ => []

end

deriving instance DecidableEq for Except

theorem diffV_self (p : List String) (v : ValueT) : diffV p v v = [] := by
  unfold diffV
  rw [beqV_refl]
  rfl

/-- The `Pointer` extractor of `src/extract/view.rs`, at the raw value
type (identity serde codec). `state` is the optional value held at the
path. -/
structure PointerV where
  state : Option ValueT
  path : List String
deriving DecidableEq

/-- The `jsonptr` crate's `Pointer::assign`, restricted to the cases
reachable through the extractor (the parent of the path exists):
replace an existing location, insert a fresh object key, or append at
index = length (or `-`) of an array. -/
def assignV : List String → ValueT → ValueT → Except String ValueT
  | [], v, _ => .ok v
  | t :: ts, v, .obj fs =>
      match lookupF t fs with
      | some child => (assignV ts v child).map (fun c => .obj (objSet t c fs))
      | Option.none =>
          if ts = [] then .ok (.obj (objInsert t v fs))
          else .error "cannot create intermediate path"
  | t :: ts, v, .arr xs =>
      match parseIdx t with
      | some i =>
          if h : i < xs.length then
            (assignV ts v (xs.get ⟨i, h⟩)).map (fun c => .arr (xs.set i c))
          else if i = xs.length ∧ ts = [] then .ok (.arr (xs ++ [v]))
          else .error "assign index out of bounds"
      | Option.none =>
          if t = "-" ∧ ts = [] then .ok (.arr (xs ++ [v]))
          else .error "invalid array index"
  | _ :: _, _, _ => .error "cannot assign through a scalar"

/-- The `jsonptr` crate's `Pointer::delete`: remove the value at the
path from its parent; a no-op when the path does not resolve. Deleting
the root replaces the document by null. -/
def deleteV : List String → ValueT → ValueT
  | [], _ => .null
  | t :: ts, .obj fs =>
      match ts with
      | [] => .obj (objRemove t fs)
      | _ :: _ =>
          match lookupF t fs with
          | some child => .obj (objSet t (deleteV ts child) fs)
          | Option.none => .obj fs
  | t :: ts, .arr xs =>
      match parseIdx t with
      | some i =>
          if h : i < xs.length then
            match ts with
            | [] => .arr (xs.eraseIdx i)
            | _ :: _ => .arr (xs.set i (deleteV ts (xs.get ⟨i, h⟩)))
          else .arr xs
      | Option.none => .arr xs
  | _ :: _, v => v

/-- `Pointer::from_system` (`src/extract/view.rs` lines 59–97): resolve
the parent of the path or fail; then a resolution failure of the full
path with `NotFound`/`OutOfBounds` yields an absent pointer, any other
resolution failure is an error. -/
def fromSystemPtr (root : ValueT) (path : List String) : Except String PointerV :=
  match resolveV path.dropLast root with
  | .error _ => .error "failed to resolve parent path"
  | .ok _ =>
      match resolveV path root with
      | .ok v => .ok ⟨some v, path⟩
      | .error .notFound => .ok ⟨Option.none, path⟩
      | .error .outOfBounds => .ok ⟨Option.none, path⟩
      | .error _ => .error "failed to resolve path"

/-- `impl IntoResult<Patch> for Pointer` (`src/extract/view.rs` lines
113–137): assign the held value (or delete the path when absent) on a
copy of the document and diff the original against the copy. -/
def intoResultPtr (root : ValueT) (p : PointerV) : Except String PatchL :=
  match p.state with
  | some v => (assignV p.path v root).map (fun after => diffV [] root after)
  | Option.none => .ok (diffV [] root (deleteV p.path root))

example :
    diffV []
      (ValueT.obj [("numbers", .arr [.str "one", .str "two", .str "three"])])
      (ValueT.obj [("numbers", .arr [.str "one", .str "three"])]) =
    [.replace ["numbers", "1"] (.str "three"), .remove ["numbers", "2"]] := by decide

example :
    fromSystemPtr (ValueT.obj [("numbers", .arr [.str "one", .str "two"])])
      ["numbers", "2"] = .ok ⟨Option.none, ["numbers", "2"]⟩ := by decide

example :
    intoResultPtr (ValueT.obj [("numbers", .arr [.str "one", .str "two"])])
      ⟨some (.str "three"), ["numbers", "2"]⟩ =
    .ok [.add ["numbers", "2"] (.str "three")] := by decide

/-- Task-level errors (`task::Error` of `src/task`; the module file is
not under `src/`, so the kinds are modelled from §7 of the spec and
from their uses in `src/task/mod.rs` and `src/worker/planner.rs`):
deserialization/input problems, the benign condition-failed signal,
runtime failures and unexpected (bug-level) failures. -/
inductive TaskErr where
  | conditionFailed
  | badInput (msg : String)
  | runtime (msg : String)
  | unexpected (msg : String)
deriving DecidableEq

/-- The calling context of a task (`task::Context`; the module file is
not under `src/`, so the fields are modelled from §3 of the spec and
from the construction site in `Planner::find_workflow`): a path, the
args captured from the path template, and the target sub-tree. -/
structure ContextC where
  path : List String
  args : List (String × String)
  target : ValueT
deriving DecidableEq

/-- Modelled from the spec: a value possibly carrying a Rust panic
(§4.D requires panics of user methods to be caught at the expansion
boundary). -/
inductive PanicOr (α : Type) where
  | ok (a : α)
  | panicked (msg : String)

/-- A task: a job instantiated with a context (`Task` in
`src/task/mod.rs`). An action exposes its pure dry-run; a method
exposes its (already panic-protected) expansion. User handler bodies
are arbitrary functions, as in the source. -/
inductive TaskT where
  | action (id : String) (ctx : ContextC)
      (dryRun : ValueT → ContextC → Except TaskErr PatchL)
  | method (id : String) (ctx : ContextC)
      (expand : ValueT → ContextC → Except TaskErr (List TaskT))

def TaskT.id : TaskT → String
  | .action i _ _ => i
  | .method i _ _ => i

def TaskT.ctx : TaskT → ContextC
  | .action _ c _ => c
  | .method _ c _ => c

/-- `Task::with_context` / `Job::build_task`: install a context,
sharing the job body. -/
def TaskT.withCtx : TaskT → ContextC → TaskT
  | .action i _ f, c => .action i c f
  | .method i _ f, c => .method i c f

/-- Set or override one argument binding. -/
def upsertArg (k v : String) : List (String × String) → List (String × String)
  | [] => [(k, v)]
  | (k2, v2) :: rest => if k = k2 then (k2, v) :: rest else (k2, v2) :: upsertArg k v rest

/-- `Task::with_arg`. -/
def TaskT.withArg (t : TaskT) (k v : String) : TaskT :=
  t.withCtx { t.ctx with args := upsertArg k v t.ctx.args }

/-- `Task::with_path`. -/
def TaskT.withPath (t : TaskT) (p : List String) : TaskT :=
  t.withCtx { t.ctx with path := p }

/-- `Method::new` (`src/task/mod.rs` lines 183–213): the user handler is
wrapped so that a panic during expansion is caught and converted into an
input error carrying the panic payload, and a normal outcome is passed
through unchanged. -/
def methodNewExpand (raw : ValueT → ContextC → PanicOr (Except TaskErr (List TaskT))) :
    ValueT → ContextC → Except TaskErr (List TaskT) :=
  fun s c =>
    match raw s c with
    | .ok r => r
    | .panicked msg => .error (.badInput msg)

/-- Build a method task from a raw (panic-capable) handler. -/
def methodNew (id : String) (ctx : ContextC)
    (raw : ValueT → ContextC → PanicOr (Except TaskErr (List TaskT))) : TaskT :=
  .method id ctx (methodNewExpand raw)

/-- The expansion function of a method task, if any. -/
def TaskT.expandFn : TaskT → Option (ValueT → ContextC → Except TaskErr (List TaskT))
  | .action _ _ _ => Option.none
  | .method _ _ f => some f

/-- The `Operation` enum of `src/task/intent.rs` (declaration order
matters: the derived Rust `Ord` is `Create < Update < Delete < Any <
None`). -/
inductive Operation where
  | create
  | update
  | delete
  | any
  | none
deriving DecidableEq

def opRank : Operation → Nat
  | .create => 0
  | .update => 1
  | .delete => 2
  | .any => 3
  | .none => 4

/-- `Task::degree` (`src/task/mod.rs`): composite (method) sorts before
atomic (action). -/
def TaskT.degreeRank : TaskT → Nat
  | .method _ _ _ => 0
  | .action _ _ _ => 1

/-- An `Intent` (`src/task/intent.rs`): an operation, a task and a
priority (`u8`, default `u8::MAX`). -/
structure Intent where
  operation : Operation
  task : TaskT
  priority : Nat

/-- Intent constructor mirroring `Intent::new(...).with_operation(op)`
(default priority `u8::MAX` = 255). -/
def mkIntent (op : Operation) (t : TaskT) : Intent := ⟨op, t, 255⟩

def cmpN (a b : Nat) : Ordering :=
  if a < b then .lt else if b < a then .gt else .eq

/-- Lexicographic comparison of `Nat` key lists; a strict prefix sorts
first (matching byte-lexicographic string comparison). -/
def cmpNatList : List Nat → List Nat → Ordering
  | [], [] => .eq
  | [], _ :: _ => .lt
  | _ :: _, [] => .gt
  | a :: as', b :: bs' => (cmpN a b).then (cmpNatList as' bs')

def charKey (s : String) : List Nat := s.data.map Char.toNat

/-- The sort key of an intent; comparing keys lexicographically is
exactly the chained comparison of `impl Ord for Intent`
(`src/task/intent.rs` lines 94–103): task degree, then operation, then
priority, then task id. -/
def intentKey (i : Intent) : List Nat :=
  i.task.degreeRank :: opRank i.operation :: i.priority :: charKey i.task.id

/-- `impl Ord for Intent`. -/
def cmpIntent (a b : Intent) : Ordering := cmpNatList (intentKey a) (intentKey b)

/-- `BTreeSet<Intent>::insert`: ordered insertion; an element comparing
equal to an existing one is not inserted (the old element is kept). -/
def insertIntent (i : Intent) : List Intent → List Intent
  | [] => [i]
  | x :: xs =>
      match cmpIntent i x with
      | .lt => i :: x :: xs
      | .eq => x :: xs
      | .gt => x :: insertIntent i xs

/-- A path-template segment: literal, single-segment hole, or wildcard
tail (the path-template grammar of §6; templates are routed by the
`matchit` crate, modelled below). -/
inductive Seg where
  | lit (s : String)
  | param (name : String)
  | wild (name : String)
deriving DecidableEq

/-- Split a substituted wildcard value back into path segments. -/
def splitSlashAux : List Char → List Char → List String
  | [], acc => [String.mk acc.reverse]
  | c :: cs, acc =>
      if c = '/' then String.mk acc.reverse :: splitSlashAux cs []
      else splitSlashAux cs (c :: acc)

def splitSlash (s : String) : List String := splitSlashAux s.data []

/-- Match a template against a concrete path, producing captured args
(the `matchit` router's matching, modelled: literals must coincide,
`param` captures one segment, a trailing `wild` captures the non-empty
rest). -/
def matchTemplate : List Seg → List String → Option (List (String × String))
  | [], [] => some []
  | [.wild n], t :: ts => some [(n, String.intercalate "/" (t :: ts))]
  | .lit s :: segs, t :: ts =>
      if s = t then matchTemplate segs ts else Option.none
  | .param n :: segs, t :: ts => (matchTemplate segs ts).map ((n, t) :: ·)
  | _, _ => Option.none

/-- Specificity key of a template (the `matchit` router prefers static
segments over parameters over catch-alls); larger is more specific. -/
def specKey : List Seg → List Nat :=
  List.map fun s => match s with
    | .lit _ => 2
    | .param _ => 1
    | .wild _ => 0

/-- The `Domain` of `src/worker/domain.rs`: a router from templates to
ordered intent sets, plus the reverse index from job id to template. -/
structure DomainD where
  router : List (List Seg × List Intent)
  index : List (String × List Seg)

def emptyDomain : DomainD := ⟨[], []⟩

def lookupRoute (r : List Seg) : List (List Seg × List Intent) → Option (List Intent)
  | [] => Option.none
  | (r2, q) :: rest => if r = r2 then some q else lookupRoute r rest

def removeRoute (r : List Seg) : List (List Seg × List Intent) → List (List Seg × List Intent)
  | [] => []
  | (r2, q) :: rest => if r = r2 then rest else (r2, q) :: removeRoute r rest

def lookupS (k : String) : List (String × List Seg) → Option (List Seg)
  | [] => Option.none
  | (k2, v) :: rest => if k = k2 then some v else lookupS k rest

/-- `Domain::job` (`src/worker/domain.rs` lines 35–80). The two Rust
panics (same job registered twice on a template; a job assigned to two
routes) are modelled by returning `Option.none`. -/
def jobD (d : DomainD) (route : List Seg) (i : Intent) : Option DomainD :=
  let queue := (lookupRoute route d.router).getD []
  if queue.any (fun x => x.task.id = i.task.id) then Option.none
  else
    let updated := !(queue.any (fun x => cmpIntent x i = Ordering.eq))
    let queue' := insertIntent i queue
    let router' := removeRoute route d.router ++ [(route, queue')]
    if updated then
      match lookupS i.task.id d.index with
      | some _ => Option.none
      | Option.none => some ⟨router', (i.task.id, route) :: d.index⟩
    else some ⟨router', d.index⟩

/-- `Domain::jobs`: fold `job` over an intent array. -/
def jobsD (d : DomainD) (route : List Seg) : List Intent → Option DomainD
  | [] => some d
  | i :: is' =>
      match jobD d route i with
      | some d' => jobsD d' route is'
      | Option.none => Option.none

/-- Select the most specific matching route (the `matchit` `Router::at`
lookup, modelled by maximizing the specificity key). -/
def bestMatchR : List (List Seg × List Intent) → List String →
    Option (List Seg × List (String × String) × List Intent)
  | [], _ => Option.none
  | (r, q) :: rest, p =>
      match matchTemplate r p with
      | Option.none => bestMatchR rest p
      | some args =>
          match bestMatchR rest p with
          | Option.none => some (r, args, q)
          | some (r2, args2, q2) =>
              if cmpNatList (specKey r2) (specKey r) = Ordering.gt
              then some (r2, args2, q2)
              else some (r, args, q)

/-- `Domain::find_jobs_at` (`src/worker/domain.rs` lines 182–198):
route the path, return the captured args and the matched intents in
set order with `None`-operation intents filtered out. -/
def findJobsAt (d : DomainD) (p : List String) :
    Option (List (String × String) × List Intent) :=
  match bestMatchR d.router p with
  | some (_, args, q) =>
      some (args, q.filter (fun i => decide (i.operation ≠ Operation.none)))
  | Option.none => Option.none

/-- Substitute captured args into the segments of a route
(`Domain::find_path_for_job`, lines 91–177, modelled at the segment
level: any placeholder left unbound is an error). -/
def substSegs (args : List (String × String)) : List Seg → Except String (List String)
  | [] => .ok []
  | .lit s :: rest => (substSegs args rest).map (s :: ·)
  | .param n :: rest =>
      match lookupS' n args with
      | some v => (substSegs args rest).map (v :: ·)
      | Option.none => .error "missing arguments for task"
  | .wild n :: rest =>
      match lookupS' n args with
      | some v => (substSegs args rest).map (splitSlash v ++ ·)
      | Option.none => .error "missing arguments for task"
where
  lookupS' (k : String) : List (String × String) → Option String
    | [] => Option.none
    | (k2, v) :: r => if k = k2 then some v else lookupS' k r

/-- `Domain::find_path_for_job`. -/
def findPathForJob (d : DomainD) (id : String) (args : List (String × String)) :
    Except String (List String) :=
  match lookupS id d.index with
  | some segs => substSegs args segs
  | Option.none => .error "could not find a job with this id in the search domain"

/-- Modelled from the spec (§3, §9 "WorkUnit identity"; `WorkUnit` lives
in the current `src/worker/workflow.rs`, which is not the version under
`src/`): the content-addressed id is a deterministic hash of (task id,
context path, resolved target, state at the addressed path). The hash
is modelled injectively by the tuple itself; the state component is
`Option.none` when the path does not resolve in the current state. -/
abbrev WorkId := String × List String × ValueT × Option ValueT

def exceptToOption {ε α : Type} : Except ε α → Option α
  | .ok a => some a
  | .error _ => Option.none

/-- `WorkUnit::new_id`. -/
def mkWorkId (taskId : String) (ctx : ContextC) (root : ValueT) : WorkId :=
  (taskId, ctx.path, ctx.target, exceptToOption (resolveV ctx.path root))

/-- A planned action with its content-addressed id (`WorkUnit`). -/
structure WorkUnit where
  id : WorkId
  taskId : String
  ctx : ContextC
  dryRun : ValueT → ContextC → Except TaskErr PatchL

/-- A partial plan (`Workflow` as used in `src/worker/planner.rs`): the
DAG built so far — the planner builds linear DAGs, held as a list with
the most recently added unit at the head — and the pending-patch buffer
of the current attempt. -/
structure WorkflowW where
  dag : List WorkUnit
  pending : PatchL

def emptyWorkflow : WorkflowW := ⟨[], []⟩

/-- `Workflow::reverse`: put the DAG in topological (execution) order. -/
def WorkflowW.reverseW (w : WorkflowW) : WorkflowW := ⟨w.dag.reverse, w.pending⟩

/-- The planner error enum (`src/worker/planner.rs` lines 18–40).
`panicked` additionally models the Rust panic at the
`.expect("failed to patch system state")` call in `find_workflow`. -/
inductive PlanErr where
  | expansionFailed (msg : String)
  | taskFailure (id : String) (source : TaskErr)
  | conditionFailed
  | loopDetected
  | notFound
  | maxDepthReached
  | unexpected (msg : String)
  | panicked (msg : String)
deriving DecidableEq

mutual

/-- `Planner::try_task` (`src/worker/planner.rs` lines 51–137). The
first argument is structural fuel for the mutual recursion with method
expansion (which is unbounded in the source); `Option.none` means the
fuel ran out. -/
def tryTask (dm : DomainD) : Nat → TaskT → ValueT → WorkflowW → Nat →
    Option (Except PlanErr WorkflowW)
  | 0, _, _, _, _ => Option.none
  | _ + 1, .action tid ctx dry, s, w, sl =>
      let wid := mkWorkId tid ctx s
      if w.dag.any (fun u => u.id = wid) then some (.error .loopDetected)
      else
        match dry s ctx with
        | .error e => some (.error (.taskFailure tid e))
        | .ok changes =>
            if sl = 0 ∧ changes = [] then some (.error .conditionFailed)
            else some (.ok ⟨⟨wid, tid, ctx, dry⟩ :: w.dag, w.pending ++ changes⟩)
  | fuel + 1, .method tid ctx ex, s, w, sl =>
      match ex s ctx with
      | .error e => some (.error (.taskFailure tid e))
      | .ok tasks =>
          match trySubtasks dm fuel tasks ctx.args s w sl with
          | Option.none => Option.none
          | some (.error e) => some (.error e)
          | some (.ok w') =>
              if sl = 0 ∧ w'.pending = [] then some (.error .conditionFailed)
              else some (.ok w')

/-- The sub-task loop of the method branch of `try_task`: each sub-task
inherits the parent's args, has its path resolved through the domain,
is tried at stack_len + 1, and on success the full accumulated pending
patch is applied to the local scratch state before continuing (this
re-applies changes that are already part of the scratch state —
faithful to the source). -/
def trySubtasks (dm : DomainD) : Nat → List TaskT → List (String × String) →
    ValueT → WorkflowW → Nat → Option (Except PlanErr WorkflowW)
  | _, [], _, _, w, _ => some (.ok w)
  | fuel, t :: ts, pargs, s, w, sl =>
      match fuel with
      | 0 => Option.none
      | fuel + 1 =>
          let t1 := pargs.foldl (fun acc kv => acc.withArg kv.1 kv.2) t
          match findPathForJob dm t1.id t1.ctx.args with
          | .error msg => some (.error (.expansionFailed msg))
          | .ok p =>
              match tryTask dm fuel (t1.withPath p) s w (sl + 1) with
              | Option.none => Option.none
              | some (.error e) => some (.error e)
              | some (.ok w') =>
                  match applyPatch s w'.pending with
                  | .error _ => some (.error (.unexpected "failed to patch system state"))
                  | .ok s' => trySubtasks dm fuel ts pargs s' w' sl

end

/-- Does a diff operation's kind select this intent operation? Modelled
from the spec (§4.D "Operation enum"; the `Distance` op type lives in
`src/worker/distance.rs`, which is not under `src/`): `Create` matches
`add`, `Update` matches `replace`, `Delete` matches `remove`, `Any`
matches all, `None` matches none. -/
def opMatches (op : PatchOp) (o : Operation) : Bool :=
  match o, op with
  | .any, _ => true
  | .create, .add _ _ => true
  | .update, .replace _ _ => true
  | .delete, .remove _ => true
  | _, _ => false

/-- The candidate filter of `Planner::find_workflow` (line 196 of
`src/worker/planner.rs`): `op.matches(&intent.operation) ||
intent.operation != Operation::Any`. -/
def intentFilter (op : PatchOp) (o : Operation) : Bool :=
  opMatches op o || decide (o ≠ Operation.any)

/-- A search node: (state, partial workflow, depth). -/
abbrev Node := ValueT × WorkflowW × Nat

/-- The inner candidate loop of `Planner::find_workflow` (lines
194–238): for each intent passing the filter, try the task; on success
with a non-empty pending patch, patch a copy of the state (a panic if
that fails), clear pending and push the node; swallow the four benign
errors; propagate everything else. Pushed nodes are accumulated at the
head of the stack, so the last push is popped first, as with `Vec`. -/
def processIntents (dm : DomainD) (tfuel : Nat) (s : ValueT) (w : WorkflowW)
    (d : Nat) (ctx : ContextC) (op : PatchOp) :
    List Intent → List Node → Option (Except PlanErr (List Node))
  | [], stack => some (.ok stack)
  | i :: is', stack =>
      if intentFilter op i.operation then
        match tryTask dm tfuel (i.task.withCtx ctx) s w 0 with
        | Option.none => Option.none
        | some (.ok w') =>
            if w'.pending = [] then processIntents dm tfuel s w d ctx op is' stack
            else
              match applyPatch s w'.pending with
              | .error _ => some (.error (.panicked "failed to patch system state"))
              | .ok s' =>
                  processIntents dm tfuel s w d ctx op is' ((s', ⟨w'.dag, []⟩, d + 1) :: stack)
        | some (.error (.taskFailure _ .conditionFailed)) =>
            processIntents dm tfuel s w d ctx op is' stack
        | some (.error .loopDetected) => processIntents dm tfuel s w d ctx op is' stack
        | some (.error .conditionFailed) => processIntents dm tfuel s w d ctx op is' stack
        | some (.error .notFound) => processIntents dm tfuel s w d ctx op is' stack
        | some (.error e) => some (.error e)
      else processIntents dm tfuel s w d ctx op is' stack

/-- The outer distance-op loop of `Planner::find_workflow` (lines
175–240): look up the jobs at the op's path, resolve the target there
(an unexpected error if that fails), build the context and run the
candidate loop. -/
def processOps (dm : DomainD) (tfuel : Nat) (tgt : ValueT) (s : ValueT)
    (w : WorkflowW) (d : Nat) :
    List PatchOp → List Node → Option (Except PlanErr (List Node))
  | [], stack => some (.ok stack)
  | op :: ops, stack =>
      match findJobsAt dm op.path with
      | Option.none => processOps dm tfuel tgt s w d ops stack
      | some (args, intents) =>
          match resolveV op.path tgt with
          | .error _ => some (.error (.unexpected "failed to resolve target path"))
          | .ok tv =>
              match processIntents dm tfuel s w d ⟨op.path, args, tv⟩ op intents stack with
              | some (.ok stack') => processOps dm tfuel tgt s w d ops stack'
              | r => r

/-- The stack loop of `Planner::find_workflow` (lines 153–244): pop a
node (empty stack fails `NotFound`); a depth ≥ 256 fails
`MaxDepthReached`; an empty distance succeeds with the reversed plan;
otherwise process the distance ops and continue. The `Distance` is
modelled from the spec (§4.F: distance(c, t) = diff(c, t), iterated in
canonical diff order; `src/worker/distance.rs` is not under `src/`). -/
def findLoop (dm : DomainD) (tgt : ValueT) : Nat → List Node →
    Option (Except PlanErr WorkflowW)
  | 0, _ => Option.none
  | _ + 1, [] => some (.error .notFound)
  | fuel + 1, (s, w, d) :: rest =>
      if 256 ≤ d then some (.error .maxDepthReached)
      else
        match diffV [] s tgt with
        | [] => some (.ok w.reverseW)
        | op :: ops =>
            match processOps dm (fuel + 1) tgt s w d (op :: ops) rest with
            | Option.none => Option.none
            | some (.error e) => some (.error e)
            | some (.ok stack') => findLoop dm tgt fuel stack'

/-- `Planner::find_workflow`. -/
def findWorkflowF (fuel : Nat) (dm : DomainD) (s tgt : ValueT) :
    Option (Except PlanErr WorkflowW) :=
  findLoop dm tgt fuel [(s, emptyWorkflow, 0)]

/-- `Planner::find_plan` (serialization of the Rust inputs is the
identity in the model). -/
def findPlanF (fuel : Nat) (dm : DomainD) (cur tgt : ValueT) :
    Option (Except PlanErr WorkflowW) :=
  findWorkflowF fuel dm cur tgt

/-- Outcome projection that forgets the (closure-carrying) workflow,
keeping only the number of planned work units, so results are
decidably comparable. -/
def planSize : Option (Except PlanErr WorkflowW) → Option (Except PlanErr Nat)
  | Option.none => Option.none
  | some (.error e) => some (.error e)
  | some (.ok w) => some (.ok w.dag.length)

/-- Replay a returned workflow in topological order against a document:
for each work unit run its pure projection at the current document and
apply the resulting patch (§6's executor contract, with the pure
projection in place of `run`). -/
def replayDag (s : ValueT) : List WorkUnit → Option ValueT
  | [] => some s
  | u :: us =>
      match u.dryRun s u.ctx with
      | .error _ => Option.none
      | .ok p =>
          match applyPatch s p with
          | .ok s' => replayDag s' us
          | .error _ => Option.none

/-- Run the planner, replay the returned workflow from the initial
state, and diff the replayed final state against the target (the inner
`Option` is `Option.none` when the replay itself fails). -/
def planReplayDiff (fuel : Nat) (dm : DomainD) (cur tgt : ValueT) :
    Option (Except PlanErr (Option PatchL)) :=
  match findPlanF fuel dm cur tgt with
  | Option.none => Option.none
  | some (.error e) => some (.error e)
  | some (.ok w) =>
      match replayDag cur w.dag with
      | some sFin => some (.ok (some (diffV [] sFin tgt)))
      | Option.none => some (.ok Option.none)

/-- A `View<i32>`-plus-`Target<i32>` action handler (the shape of
`plus_one`/`minus_one`/`buggy_plus_one` in the tests of
`src/worker/planner.rs`): read the integer at the context path, apply
`f` to it and the target, write it back, and return the diff. -/
def viewIntTargetDry (f : Int → Int → Int) : ValueT → ContextC → Except TaskErr PatchL :=
  fun s ctx =>
    match fromSystemPtr s ctx.path with
    | .error m => .error (.badInput m)
    | .ok p =>
        match p.state, ctx.target with
        | some (.num v), .num tgt =>
            match intoResultPtr s ⟨some (.num (f v tgt)), ctx.path⟩ with
            | .ok patch => .ok patch
            | .error m => .error (.unexpected m)
        | _, _ => .error (.badInput "failed to deserialize view or target")

/-- A `Pointer<String>` action handler that assigns a constant string
at the context path. -/
def pointerSetStr (c : String) : ValueT → ContextC → Except TaskErr PatchL :=
  fun s ctx =>
    match fromSystemPtr s ctx.path with
    | .error m => .error (.badInput m)
    | .ok _ =>
        match intoResultPtr s ⟨some (.str c), ctx.path⟩ with
        | .ok patch => .ok patch
        | .error m => .error (.unexpected m)

/-- A `View<Vec<String>>` action handler that appends `"GOOD"` when the
array at the context path has exactly two elements and leaves it
untouched otherwise. -/
def condAppendDry : ValueT → ContextC → Except TaskErr PatchL :=
  fun s ctx =>
    match fromSystemPtr s ctx.path with
    | .error m => .error (.badInput m)
    | .ok p =>
        match p.state with
        | some (.arr l) =>
            let l' := if l.length = 2 then l ++ [.str "GOOD"] else l
            match intoResultPtr s ⟨some (.arr l'), ctx.path⟩ with
            | .ok patch => .ok patch
            | .error m => .error (.unexpected m)
        | _ => .error (.badInput "view path does not exist")

def baseCtx : ContextC := ⟨[], [], .null⟩

/-- Scenario A of the spec (`it_calculates_a_linear_workflow`):
`plus_one` and `minus_one` registered as updates at the root. -/
def taskPlusOne : TaskT :=
  .action "tests::plus_one" baseCtx (viewIntTargetDry fun v tgt => if v < tgt then v + 1 else v)

def taskMinusOne : TaskT :=
  .action "tests::minus_one" baseCtx (viewIntTargetDry fun v tgt => if tgt < v then v - 1 else v)

def taskBuggyPlusOne : TaskT :=
  .action "tests::buggy_plus_one" baseCtx
    (viewIntTargetDry fun v tgt => if v < tgt then v - 1 else v)

def domA : DomainD :=
  ((jobD emptyDomain [] (mkIntent .update taskPlusOne)).bind
    fun d => jobD d [] (mkIntent .update taskMinusOne)).getD emptyDomain

/-- The reciprocal buggy pair of
`it_aborts_search_if_plan_length_grows_too_much`. -/
def domBuggy : DomainD :=
  ((jobD emptyDomain [] (mkIntent .update taskBuggyPlusOne)).bind
    fun d => jobD d [] (mkIntent .update taskMinusOne)).getD emptyDomain

/-- A domain registering `plus_one` with a `Delete` intent at the root
(for the candidate-filter claim). -/
def domDelete : DomainD :=
  (jobD emptyDomain [] (mkIntent .delete taskPlusOne)).getD emptyDomain

example : planSize (findPlanF 50 domA (.num 0) (.num 2)) = some (.ok 2) := by decide

example :
    planSize (findPlanF 50 domDelete (.num 0) (.num 2)) = some (.ok 2) := by decide

/-- Sub-tasks of the unsoundness scenario: two `Pointer<String>`
appenders and the length-dependent appender, plus the method that
expands into all three. -/
def taskSetA : TaskT := .action "a1" baseCtx (pointerSetStr "a")

def taskSetB : TaskT := .action "a2" baseCtx (pointerSetStr "b")

def taskCondAppend : TaskT := .action "h3" baseCtx condAppendDry

def taskMethodM : TaskT :=
  .method "m" baseCtx (fun _ _ => .ok [taskSetA, taskSetB, taskCondAppend])

/-- The unsoundness domain: the method `m` is the only plannable intent,
registered at `/n/{i}`; its sub-tasks are registered with `None`
intents (`a1`, `a2` at `/n/{i}`, `h3` at `/n`) so they are reachable by
the reverse index but never selected directly. -/
def domMethod : DomainD :=
  (((jobD emptyDomain [Seg.lit "n", Seg.param "i"] (mkIntent .create taskMethodM)).bind
      fun d => jobD d [Seg.lit "n", Seg.param "i"] (mkIntent .none taskSetA)).bind
    fun d =>
      (jobD d [Seg.lit "n", Seg.param "i"] (mkIntent .none taskSetB)).bind
        fun d2 => jobD d2 [Seg.lit "n"] (mkIntent .none taskCondAppend)).getD emptyDomain

def stateC1 : ValueT := .obj [("n", .arr [.str "x"])]

def targetC1 : ValueT := .obj [("n", .arr [.str "x", .str "b"])]

theorem listSet_get_self {α : Type} : ∀ (l : List α) (i : Nat) (h : i < l.length),
    l.set i (l.get ⟨i, h⟩) = l
  | _ :: _, 0, _ => rfl
  | x :: xs, i + 1, h => by
      simp only [List.set, List.get]
      rw [listSet_get_self xs i (Nat.lt_of_succ_lt_succ h)]

theorem eraseIdx_of_le {α : Type} : ∀ (l : List α) (i : Nat), l.length ≤ i →
    l.eraseIdx i = l
  | [], _, _ => by simp [List.eraseIdx]
  | _ :: _, 0, h => by simp at h
  | x :: xs, i + 1, h => by
      simp only [List.eraseIdx]
      rw [eraseIdx_of_le xs i (Nat.le_of_succ_le_succ h)]

theorem objSet_lookup_self : ∀ (fs : List (String × ValueT)) (k : String) (v : ValueT),
    lookupF k fs = some v → objSet k v fs = fs
  | [], k, v, h => by simp [lookupF] at h
  | (k2, v2) :: rest, k, v, h => by
      by_cases hk : k = k2
      · simp only [lookupF, if_pos hk] at h
        simp only [objSet, if_pos hk]
        rw [Option.some_inj.mp h]
      · simp only [lookupF, if_neg hk] at h
        simp only [objSet, if_neg hk]
        rw [objSet_lookup_self rest k v h]

/-- Writing back the value read at a resolvable path leaves the
document unchanged. -/
theorem assignV_resolve_self : ∀ (p : List String) (doc v : ValueT),
    resolveV p doc = .ok v → assignV p v doc = .ok doc
  | [], doc, v, h => by
      simp only [resolveV, Except.ok.injEq] at h
      simp [assignV, h]
  | t :: ts, .obj fs, v, h => by
      simp only [resolveV] at h
      rcases hl : lookupF t fs with _ | child
      · rw [hl] at h; exact absurd h (by simp)
      · rw [hl] at h
        simp only [assignV, hl]
        rw [assignV_resolve_self ts child v h]
        simp only [Except.map]
        rw [objSet_lookup_self fs t child hl]
  | t :: ts, .arr xs, v, h => by
      simp only [resolveV] at h
      rcases hp : parseIdx t with _ | i
      · simp only [hp] at h
        exact absurd h (by simp)
      · simp only [hp] at h
        simp only [assignV, hp]
        by_cases hi : i < xs.length
        · rw [dif_pos hi] at h
          rw [dif_pos hi, assignV_resolve_self ts (xs.get ⟨i, hi⟩) v h]
          simp only [Except.map]
          rw [listSet_get_self xs i hi]
        · rw [dif_neg hi] at h; exact absurd h (by simp)
  | _ :: _, .null, v, h => by simp [resolveV] at h
  | _ :: _, .bool _, v, h => by simp [resolveV] at h
  | _ :: _, .num _, v, h => by simp [resolveV] at h
  | _ :: _, .str _, v, h => by simp [resolveV] at h

theorem objRemove_lookup_none : ∀ (fs : List (String × ValueT)) (k : String),
    lookupF k fs = Option.none → objRemove k fs = fs
  | [], _, _ => rfl
  | (k2, v2) :: rest, k, h => by
      by_cases hk : k = k2
      · simp [lookupF, if_pos hk] at h
      · simp only [lookupF, if_neg hk] at h
        simp only [objRemove, if_neg hk]
        rw [objRemove_lookup_none rest k h]

/-- Deleting a path that fails to resolve with not-found or
out-of-bounds is a no-op. -/
theorem deleteV_unresolvable : ∀ (p : List String) (doc : ValueT),
    (resolveV p doc = .error .notFound ∨ resolveV p doc = .error .outOfBounds) →
    deleteV p doc = doc
  | [], doc, h => by simp [resolveV] at h
  | t :: ts, .obj fs, h => by
      simp only [resolveV] at h
      rcases hl : lookupF t fs with _ | child
      · rcases ts with _ | ⟨t2, ts⟩
        · simp only [deleteV]
          rw [objRemove_lookup_none fs t hl]
        · simp only [deleteV, hl]
      · rw [hl] at h
        rcases ts with _ | ⟨t2, ts⟩
        · simp only [resolveV] at h
          rcases h with h | h <;> exact absurd h (by simp)
        · simp only [deleteV, hl]
          rw [deleteV_unresolvable (t2 :: ts) child h]
          rw [objSet_lookup_self fs t child hl]
  | t :: ts, .arr xs, h => by
      simp only [resolveV] at h
      rcases hp : parseIdx t with _ | i
      · simp only [hp] at h
        rcases h with h | h <;> exact absurd h (by simp)
      · simp only [hp] at h
        by_cases hi : i < xs.length
        · rw [dif_pos hi] at h
          rcases ts with _ | ⟨t2, ts⟩
          · simp only [resolveV] at h
            rcases h with h | h <;> exact absurd h (by simp)
          · simp only [deleteV, hp, dif_pos hi]
            rw [deleteV_unresolvable (t2 :: ts) (xs.get ⟨i, hi⟩) h]
            rw [listSet_get_self xs i hi]
        · simp only [deleteV, hp, dif_neg hi]
  | t :: ts, .null, h => by simp [resolveV] at h
  | t :: ts, .bool _, h => by simp [resolveV] at h
  | t :: ts, .num _, h => by simp [resolveV] at h
  | t :: ts, .str _, h => by simp [resolveV] at h

/-- Is the value a container (array or object), as opposed to a scalar? -/
def isContainer : ValueT → Bool
  | .arr _ => true
  | .obj _ => true
  | _ => false

/-- C9: for every document and every path at which a Pointer can be
constructed, consuming a Pointer that was constructed from the document
and on which neither assign nor unassign (nor any mutation of the held
value) was performed yields the empty patch. -/
theorem c9_pointer_identity (doc : ValueT) (path : List String) (ptr : PointerV)
    (h : fromSystemPtr doc path = .ok ptr) : intoResultPtr doc ptr = .ok [] := by
  unfold fromSystemPtr at h
  rcases hpar : resolveV path.dropLast doc with re | pv
  · rw [hpar] at h; exact absurd h (by simp)
  · rw [hpar] at h
    rcases hfull : resolveV path doc with re | v
    · rcases re with _ | _ | _ | _
      · rw [hfull] at h
        have hp : ptr = ⟨Option.none, path⟩ := by
          simpa using (Except.ok.inj h).symm
        subst hp
        simp only [intoResultPtr]
        rw [deleteV_unresolvable path doc (Or.inl hfull), diffV_self]
      · rw [hfull] at h
        have hp : ptr = ⟨Option.none, path⟩ := by
          simpa using (Except.ok.inj h).symm
        subst hp
        simp only [intoResultPtr]
        rw [deleteV_unresolvable path doc (Or.inr hfull), diffV_self]
      · rw [hfull] at h; exact absurd h (by simp)
      · rw [hfull] at h; exact absurd h (by simp)
    · rw [hfull] at h
      have hp : ptr = ⟨some v, path⟩ := by
        simpa using (Except.ok.inj h).symm
      subst hp
      simp only [intoResultPtr]
      rw [assignV_resolve_self path doc v hfull]
      simp only [Except.map]
      rw [diffV_self]

theorem c9_pointer_identity_witness :
    fromSystemPtr (ValueT.obj [("a", .num 1)]) ["a"] = .ok ⟨some (.num 1), ["a"]⟩ ∧
    intoResultPtr (ValueT.obj [("a", .num 1)]) ⟨some (.num 1), ["a"]⟩ = .ok [] :=
  ⟨by decide, c9_pointer_identity (ValueT.obj [("a", .num 1)]) ["a"]
    ⟨some (.num 1), ["a"]⟩ (by decide)⟩

/-- C10: for every document and every path whose parent resolves to a
non-scalar value, Pointer construction succeeds even when resolution of
the full path fails with not-found or an out-of-bounds index, yielding
a Pointer that holds absent; and construction returns an error only
when the parent itself cannot be resolved or resolution of the full
path fails for a reason other than not-found / out-of-bounds. -/
theorem c10_pointer_absent (doc : ValueT) (path : List String) :
    (∀ pv, resolveV path.dropLast doc = .ok pv → isContainer pv = true →
      (resolveV path doc = .error .notFound ∨ resolveV path doc = .error .outOfBounds) →
      fromSystemPtr doc path = .ok ⟨Option.none, path⟩) ∧
    (∀ msg, fromSystemPtr doc path = .error msg →
      (∃ re, resolveV path.dropLast doc = .error re) ∨
      (∃ re, resolveV path doc = .error re ∧ re ≠ .notFound ∧ re ≠ .outOfBounds)) := by
  constructor
  · intro pv hpar _ hfull
    unfold fromSystemPtr
    rw [hpar]
    rcases hfull with hfull | hfull <;> rw [hfull]
  · intro msg h
    unfold fromSystemPtr at h
    rcases hpar : resolveV path.dropLast doc with re | pv
    · exact Or.inl ⟨re, rfl⟩
    · rw [hpar] at h
      rcases hfull : resolveV path doc with re | v
      · rcases re with _ | _ | _ | _
        · rw [hfull] at h; exact absurd h (by simp)
        · rw [hfull] at h; exact absurd h (by simp)
        · exact Or.inr ⟨.failedToParseIndex, rfl, by decide, by decide⟩
        · exact Or.inr ⟨.unreachable, rfl, by decide, by decide⟩
      · rw [hfull] at h; exact absurd h (by simp)

theorem c10_pointer_absent_witness :
    (fromSystemPtr (ValueT.obj [("n", .arr [.str "x"])]) ["n", "1"] =
      .ok ⟨Option.none, ["n", "1"]⟩) ∧
    ((∃ re, resolveV ["q"] (ValueT.num 5) = .error re) ∨
      (∃ re, resolveV ["q", "r"] (ValueT.num 5) = .error re ∧
        re ≠ .notFound ∧ re ≠ .outOfBounds)) :=
  ⟨(c10_pointer_absent (ValueT.obj [("n", .arr [.str "x"])]) ["n", "1"]).1
      (.arr [.str "x"]) (by decide) (by decide) (Or.inr (by decide)),
    (c10_pointer_absent (ValueT.num 5) ["q", "r"]).2 "failed to resolve parent path"
      (by decide)⟩

/-- C7: for every method task and every state, if the user-supplied
method body panics during expand, the panic is caught and expand
returns an input error carrying the panic payload — it never
propagates the panic; a non-panicking outcome is passed through
unchanged. -/
theorem c7_method_panic_caught
    (raw : ValueT → ContextC → PanicOr (Except TaskErr (List TaskT)))
    (id : String) (ctx : ContextC) (s : ValueT) (c : ContextC) :
    (∀ msg, raw s c = .panicked msg →
      (methodNew id ctx raw).expandFn = some (methodNewExpand raw) ∧
      methodNewExpand raw s c = .error (.badInput msg)) ∧
    (∀ r, raw s c = .ok r → methodNewExpand raw s c = r) := by
  constructor
  · intro msg hp
    refine ⟨rfl, ?_⟩
    unfold methodNewExpand
    rw [hp]
  · intro r hr
    unfold methodNewExpand
    rw [hr]

theorem c7_method_panic_caught_witness :
    methodNewExpand (fun _ _ => .panicked "Serialization failed") (.num 0) baseCtx =
      .error (.badInput "Serialization failed") :=
  ((c7_method_panic_caught (fun _ _ => .panicked "Serialization failed")
      "m" baseCtx (.num 0) baseCtx).1 "Serialization failed" rfl).2

/-- The in-place replaces produced by diffing a list against itself
shifted down by one, starting at index `j`: one replace per position
whose value differs from its successor. -/
def shiftReplaces (p : List String) : Nat → List ValueT → PatchL
  | _, [] => []
  | _, [_] => []
  | j, x :: y :: rest =>
      (if x = y then [] else [.replace (p ++ [natToStr j]) y]) ++
        shiftReplaces p (j + 1) (y :: rest)

theorem diffV_scalar (p : List String) (x y : ValueT)
    (hx : isContainer x = false) (hy : isContainer y = false) (hne : x ≠ y) :
    diffV p x y = [.replace p y] := by
  have hb : beqV x y = false := by rw [beqV_eq_decide]; exact decide_eq_false hne
  cases x <;> cases y <;>
    first
      | (simp [isContainer] at hx; done)
      | (simp [isContainer] at hy; done)
      | (unfold diffV; rw [hb]; rfl)

theorem diffItems_tail (p : List String) :
    ∀ (l : List ValueT) (j : Nat), (∀ v ∈ l, isContainer v = false) →
      diffItems p j l l.tail = shiftReplaces p j l
  | [], j, _ => rfl
  | [x], j, _ => rfl
  | x :: y :: rest, j, hs => by
      have hx : isContainer x = false := hs x (by simp)
      have hy : isContainer y = false := hs y (by simp)
      simp only [List.tail_cons]
      have : diffItems p j (x :: y :: rest) (y :: rest) =
          diffV (p ++ [natToStr j]) x y ++ diffItems p (j + 1) (y :: rest) rest := rfl
      rw [this]
      have ht : diffItems p (j + 1) (y :: rest) rest =
          shiftReplaces p (j + 1) (y :: rest) :=
        diffItems_tail p (y :: rest) (j + 1) (fun v hv => hs v (by simp [hv]))
      rw [ht]
      by_cases hxy : x = y
      · subst hxy
        rw [diffV_self]
        simp [shiftReplaces, if_pos rfl]
      · rw [diffV_scalar (p ++ [natToStr j]) x y hx hy hxy]
        simp [shiftReplaces, if_neg hxy]

theorem diffItems_eraseIdx (p : List String) :
    ∀ (i : Nat) (l : List ValueT) (j : Nat), (∀ v ∈ l, isContainer v = false) →
      i + 1 < l.length →
      diffItems p j l (l.eraseIdx i) = shiftReplaces p (j + i) (l.drop i)
  | 0, l, j, hs, _ => by
      have h0 : l.eraseIdx 0 = l.tail := by cases l <;> rfl
      rw [h0, Nat.add_zero, List.drop_zero]
      exact diffItems_tail p l j hs
  | i + 1, [], j, _, hlen => by simp at hlen
  | i + 1, x :: xs, j, hs, hlen => by
      have : (x :: xs).eraseIdx (i + 1) = x :: xs.eraseIdx i := rfl
      rw [this]
      have hstep : diffItems p j (x :: xs) (x :: xs.eraseIdx i) =
          diffV (p ++ [natToStr j]) x x ++ diffItems p (j + 1) xs (xs.eraseIdx i) := rfl
      rw [hstep, diffV_self]
      have hih := diffItems_eraseIdx p i xs (j + 1)
        (fun v hv => hs v (by simp [hv])) (by simpa using hlen)
      rw [hih]
      have harith : j + 1 + i = j + (i + 1) := by omega
      rw [harith]
      rfl

/-- Diffing an all-scalar array against itself with an interior index
removed yields the shifted replaces followed by a removal of the last
index. -/
theorem diffV_arr_eraseIdx (p : List String) (l : List ValueT) (i : Nat)
    (hs : ∀ v ∈ l, isContainer v = false) (hlen : i + 1 < l.length) :
    diffV p (.arr l) (.arr (l.eraseIdx i)) =
      shiftReplaces p i (l.drop i) ++ [.remove (p ++ [natToStr (l.length - 1)])] := by
  have hi : i < l.length := Nat.lt_of_succ_lt hlen
  have hlenE : (l.eraseIdx i).length + 1 = l.length := List.length_eraseIdx_add_one hi
  have hne : ValueT.arr l ≠ ValueT.arr (l.eraseIdx i) := by
    intro he
    have : l = l.eraseIdx i := by injection he
    have := congrArg List.length this
    omega
  have hb : beqV (.arr l) (.arr (l.eraseIdx i)) = false := by
    rw [beqV_eq_decide]; exact decide_eq_false hne
  unfold diffV
  rw [hb]
  simp only [Bool.false_eq_true, if_false]
  have hlt : (l.eraseIdx i).length < l.length := by omega
  rw [if_pos hlt]
  have hrange : l.length - (l.eraseIdx i).length = 1 := by omega
  rw [hrange]
  have h1 : ((List.range 1).reverse.map
      fun k => PatchOp.remove (p ++ [natToStr ((l.eraseIdx i).length + k)])) =
      [PatchOp.remove (p ++ [natToStr ((l.eraseIdx i).length)])] := by
    have hr1 : List.range 1 = [0] := by decide
    rw [hr1]
    rfl
  rw [h1]
  have h2len : (l.eraseIdx i).length = l.length - 1 := by omega
  rw [h2len]
  have h2 := diffItems_eraseIdx p i l 0 hs hlen
  rw [Nat.zero_add] at h2
  rw [h2]

/-- Character codes determine characters. -/
theorem char_toNat_inj (a b : Char) (h : a.toNat = b.toNat) : a = b := by
  apply Char.eq_of_val_eq
  apply UInt32.eq_of_val_eq
  apply Fin.eq_of_val_eq
  exact h

theorem digitChar_toNat (d : Nat) (h : d < 10) : (digitChar d).toNat = 48 + d := by
  interval_cases d <;> decide

theorem digitVal_eq (c : Char) (d : Nat) (h : digitVal c = some d) :
    c.toNat = 48 + d ∧ d < 10 := by
  unfold digitVal at h
  by_cases hb : 48 ≤ c.toNat ∧ c.toNat ≤ 57
  · rw [if_pos hb] at h
    have hd := Option.some_inj.mp h
    omega
  · rw [if_neg hb] at h
    exact absurd h (by simp)

theorem digitChar_digitVal (c : Char) (d : Nat) (h : digitVal c = some d) :
    digitChar d = c := by
  obtain ⟨hc, hd⟩ := digitVal_eq c d h
  refine char_toNat_inj _ _ ?_
  rw [digitChar_toNat d hd]
  omega

/-- The digit fuel is irrelevant once it is at least the number. -/
theorem natDigits_fuel (n : Nat) : ∀ (f1 f2 : Nat) (acc : List Char),
    n ≤ f1 → n ≤ f2 → natDigits f1 n acc = natDigits f2 n acc := by
  induction n using Nat.strong_induction_on with
  | _ n ih =>
    intro f1 f2 acc h1 h2
    match n, f1, f2, h1, h2 with
    | 0, 0, 0, _, _ => rfl
    | 0, 0, _ + 1, _, _ => rfl
    | 0, _ + 1, 0, _, _ => rfl
    | 0, _ + 1, _ + 1, _, _ => rfl
    | m + 1, a + 1, b + 1, h1, h2 =>
        show natDigits a ((m + 1) / 10) _ = natDigits b ((m + 1) / 10) _
        exact ih ((m + 1) / 10) (by omega) a b _ (by omega) (by omega)

/-- The accumulator of `natDigits` is appended to the produced digits. -/
theorem natDigits_append : ∀ (f n : Nat) (acc : List Char),
    natDigits f n acc = natDigits f n [] ++ acc
  | 0, 0, _ => rfl
  | 0, _ + 1, _ => rfl
  | _ + 1, 0, _ => rfl
  | f + 1, m + 1, acc => by
      show natDigits f ((m + 1) / 10) (digitChar ((m + 1) % 10) :: acc) =
        natDigits f ((m + 1) / 10) [digitChar ((m + 1) % 10)] ++ acc
      rw [natDigits_append f ((m + 1) / 10) (digitChar ((m + 1) % 10) :: acc),
        natDigits_append f ((m + 1) / 10) [digitChar ((m + 1) % 10)]]
      simp

/-- The decimal digits of `n`, most significant first. -/
def digitsOf (n : Nat) : List Char := natDigits n n []

theorem digitsOf_step (n : Nat) (h : 0 < n) :
    digitsOf n = digitsOf (n / 10) ++ [digitChar (n % 10)] := by
  obtain ⟨m, rfl⟩ : ∃ m, n = m + 1 := ⟨n - 1, by omega⟩
  show natDigits m ((m + 1) / 10) [digitChar ((m + 1) % 10)] = _
  rw [natDigits_append m ((m + 1) / 10) [digitChar ((m + 1) % 10)]]
  rw [natDigits_fuel ((m + 1) / 10) m ((m + 1) / 10) [] (by omega) (by omega)]
  rfl

theorem digitsOf_digit (d : Nat) (h1 : 0 < d) (h10 : d < 10) :
    digitsOf d = [digitChar d] := by
  rw [digitsOf_step d h1]
  have hq : d / 10 = 0 := by omega
  have hr : d % 10 = d := by omega
  rw [hq, hr]
  rfl

/-- A digit run folded onto a positive accumulator renders back to the
digits of the accumulator followed by the run. -/
theorem parseDigits_digitsOf : ∀ (cs : List Char) (acc n : Nat), 0 < acc →
    parseDigits cs acc = some n → digitsOf n = digitsOf acc ++ cs
  | [], acc, n, _, h => by
      obtain rfl : acc = n := Option.some_inj.mp h
      simp
  | c :: cs, acc, n, hacc, h => by
      simp only [parseDigits] at h
      rcases hd : digitVal c with _ | d
      · simp only [hd] at h
        exact Option.noConfusion h
      · simp only [hd] at h
        obtain ⟨hc, hd10⟩ := digitVal_eq c d hd
        have hstep := parseDigits_digitsOf cs (acc * 10 + d) n (by omega) h
        rw [hstep]
        have hq : (acc * 10 + d) / 10 = acc := by omega
        have hr : (acc * 10 + d) % 10 = d := by omega
        have h2 : digitsOf (acc * 10 + d) = digitsOf acc ++ [c] := by
          rw [digitsOf_step (acc * 10 + d) (by omega), hq, hr,
            digitChar_digitVal c d hd]
        rw [h2]
        simp

theorem parseIdx_cons (c : Char) (cs : List Char) (hc : ¬c = '0') :
    parseIdx (String.mk (c :: cs)) =
      (match digitVal c with
       | some d => parseDigits cs d
       | Option.none => Option.none) := by
  unfold parseIdx
  split
  · next heq => simp at heq
  · next heq =>
      simp only [List.cons.injEq] at heq
      exact absurd heq.1 hc
  · next c2 cs2 heq =>
      simp only [List.cons.injEq] at heq
      obtain ⟨rfl, rfl⟩ := heq
      rw [if_neg hc]

/-- A token the `jsonptr` index parser accepts is the canonical decimal
rendering of its value: `parseIdx` inverts `natToStr`. -/
theorem natToStr_parseIdx (s : String) (k : Nat) (h : parseIdx s = some k) :
    natToStr k = s := by
  obtain ⟨data⟩ := s
  rcases data with _ | ⟨c, cs⟩
  · rw [show parseIdx (String.mk []) = Option.none from rfl] at h
    exact absurd h (by simp)
  · by_cases hc : c = '0'
    · subst hc
      rcases cs with _ | ⟨c2, cs2⟩
      · rw [show parseIdx (String.mk ['0']) = some 0 from rfl] at h
        obtain rfl : (0 : Nat) = k := Option.some_inj.mp h
        decide
      · rw [show parseIdx (String.mk ('0' :: c2 :: cs2)) = Option.none from rfl] at h
        exact absurd h (by simp)
    · rw [parseIdx_cons c cs hc] at h
      rcases hd : digitVal c with _ | d
      · simp only [hd] at h
        exact Option.noConfusion h
      · simp only [hd] at h
        obtain ⟨hc48, hd10⟩ := digitVal_eq c d hd
        have hdpos : 0 < d := by
          rcases Nat.eq_zero_or_pos d with h0 | h0
          · refine absurd (char_toNat_inj c '0' ?_) hc
            rw [hc48, h0]
            decide
          · exact h0
        have hds := parseDigits_digitsOf cs d k hdpos h
        rw [digitsOf_digit d hdpos hd10, digitChar_digitVal c d hd] at hds
        have hk0 : k ≠ 0 := by
          intro h0
          rw [h0, show digitsOf 0 = [] from rfl] at hds
          simp at hds
        show natToStr k = _
        unfold natToStr
        rw [if_neg hk0]
        show String.mk (digitsOf k) = String.mk (c :: cs)
        rw [hds]
        rfl

theorem objSet_lookup_eq : ∀ (fs : List (String × ValueT)) (k : String) (v c : ValueT),
    lookupF k fs = some v → lookupF k (objSet k c fs) = some c
  | [], _, _, _, h => by simp [lookupF] at h
  | (k2, v2) :: rest, k, v, c, h => by
      by_cases hk : k = k2
      · simp [objSet, if_pos hk, lookupF]
      · simp only [lookupF, if_neg hk] at h
        simp only [objSet, if_neg hk, lookupF, if_neg hk]
        exact objSet_lookup_eq rest k v c h

theorem objSet_lookup_ne : ∀ (fs : List (String × ValueT)) (k k2 : String) (c : ValueT),
    ¬k2 = k → lookupF k2 (objSet k c fs) = lookupF k2 fs
  | [], _, _, _, _ => rfl
  | (k3, v3) :: rest, k, k2, c, h => by
      by_cases hk : k = k3
      · subst hk
        simp only [objSet, if_pos rfl, lookupF, if_neg h]
      · simp only [objSet, if_neg hk, lookupF]
        by_cases hk2 : k2 = k3
        · simp [if_pos hk2]
        · simp only [if_neg hk2]
          exact objSet_lookup_ne rest k k2 c h

theorem objSet_keys : ∀ (fs : List (String × ValueT)) (k : String) (c : ValueT),
    (objSet k c fs).map Prod.fst = fs.map Prod.fst
  | [], _, _ => rfl
  | (k2, v2) :: rest, k, c => by
      by_cases hk : k = k2
      · simp [objSet, if_pos hk]
      · simp only [objSet, if_neg hk, List.map]
        rw [objSet_keys rest k c]

theorem lookupF_isSome_of_mem : ∀ (fs : List (String × ValueT)) (k : String),
    k ∈ fs.map Prod.fst → ∃ v, lookupF k fs = some v
  | [], k, h => absurd h (List.not_mem_nil k)
  | (k2, v2) :: rest, k, h => by
      by_cases hk : k = k2
      · exact ⟨v2, by simp [lookupF, if_pos hk]⟩
      · have hm : k ∈ rest.map Prod.fst := by
          simp only [List.map, List.mem_cons] at h
          rcases h with h | h
          · exact absurd h hk
          · exact h
        obtain ⟨v, hv⟩ := lookupF_isSome_of_mem rest k hm
        exact ⟨v, by simp [lookupF, if_neg hk, hv]⟩

/-- Field keys of one object level are pairwise distinct (the
`serde_json` `BTreeMap` representation invariant). -/
def keysNodupF : List (String × ValueT) → Bool
  | [] => true
  | (k, _) :: rest => rest.all (fun kv => decide (¬kv.1 = k)) && keysNodupF rest

theorem lookupF_of_mem_nodup : ∀ (fs : List (String × ValueT)) (k : String) (v : ValueT),
    keysNodupF fs = true → (k, v) ∈ fs → lookupF k fs = some v
  | [], _, _, _, h => absurd h (List.not_mem_nil _)
  | (k2, v2) :: rest, k, v, hnd, h => by
      simp only [keysNodupF, Bool.and_eq_true] at hnd
      rcases List.mem_cons.mp h with heq | hmem
      · injection heq with h1 h2
        subst h1
        subst h2
        simp [lookupF]
      · by_cases hk : k = k2
        · subst hk
          have := List.all_eq_true.mp hnd.1 (k, v) hmem
          simp at this
        · simp only [lookupF, if_neg hk]
          exact lookupF_of_mem_nodup rest k v hnd.2 hmem

/-- Every object level on the given resolve path has pairwise-distinct
field keys (the `serde_json` invariant, along the path). -/
def pathKeysOk : List String → ValueT → Bool
  | [], _ => true
  | t :: ts, .obj fs =>
      keysNodupF fs &&
        (match lookupF t fs with
         | some child => pathKeysOk ts child
         | Option.none => true)
  | t :: ts, .arr xs =>
      (match parseIdx t with
       | some i => if h : i < xs.length then pathKeysOk ts (xs.get ⟨i, h⟩) else true
       | Option.none => true)
  | _ :: _, _ => true

theorem deleteV_obj_cons (s : String) (ts : List String) (fs : List (String × ValueT))
    (h : ts ≠ []) :
    deleteV (s :: ts) (.obj fs) =
      (match lookupF s fs with
       | some child => .obj (objSet s (deleteV ts child) fs)
       | Option.none => .obj fs) := by
  cases ts with
  | nil => exact absurd rfl h
  | cons a as => rfl

theorem deleteV_arr_cons (s : String) (ts : List String) (xs : List ValueT)
    (h : ts ≠ []) :
    deleteV (s :: ts) (.arr xs) =
      (match parseIdx s with
       | some i =>
           if hi : i < xs.length then .arr (xs.set i (deleteV ts (xs.get ⟨i, hi⟩)))
           else .arr xs
       | Option.none => .arr xs) := by
  cases ts with
  | nil => exact absurd rfl h
  | cons a as => rfl

/-- Deleting an index of the array resolved at a path leaves a document
in which the path resolves to the array with that index removed. -/
theorem resolveV_deleteV : ∀ (p : List String) (doc : ValueT) (l : List ValueT)
    (t : String) (i : Nat), resolveV p doc = .ok (.arr l) → parseIdx t = some i →
    i < l.length → resolveV p (deleteV (p ++ [t]) doc) = .ok (.arr (l.eraseIdx i))
  | [], doc, l, t, i, hres, hp, hi => by
      obtain rfl : doc = .arr l := by simpa [resolveV] using hres
      have hdel : deleteV ([] ++ [t]) (.arr l) = .arr (l.eraseIdx i) := by
        simp only [List.nil_append, deleteV, hp, dif_pos hi]
      rw [hdel]
      rfl
  | s :: p2, .obj fs, l, t, i, hres, hp, hi => by
      simp only [resolveV] at hres
      rcases hl : lookupF s fs with _ | child
      · simp only [hl] at hres
        exact absurd hres (by simp)
      · simp only [hl] at hres
        have hne : p2 ++ [t] ≠ [] := by simp
        rw [show ((s :: p2) ++ [t]) = s :: (p2 ++ [t]) from rfl,
          deleteV_obj_cons s (p2 ++ [t]) fs hne]
        simp only [hl]
        show resolveV (s :: p2) (.obj (objSet s (deleteV (p2 ++ [t]) child) fs)) = _
        simp only [resolveV, objSet_lookup_eq fs s child (deleteV (p2 ++ [t]) child) hl]
        exact resolveV_deleteV p2 child l t i hres hp hi
  | s :: p2, .arr xs, l, t, i, hres, hp, hi => by
      simp only [resolveV] at hres
      rcases hk : parseIdx s with _ | k
      · simp only [hk] at hres
        exact absurd hres (by simp)
      · simp only [hk] at hres
        by_cases hkl : k < xs.length
        · rw [dif_pos hkl] at hres
          have hne : p2 ++ [t] ≠ [] := by simp
          rw [show ((s :: p2) ++ [t]) = s :: (p2 ++ [t]) from rfl,
            deleteV_arr_cons s (p2 ++ [t]) xs hne]
          simp only [hk, dif_pos hkl]
          show resolveV (s :: p2)
            (.arr (xs.set k (deleteV (p2 ++ [t]) (xs.get ⟨k, hkl⟩)))) = _
          simp only [resolveV, hk]
          have hkl2 : k < (xs.set k (deleteV (p2 ++ [t]) (xs.get ⟨k, hkl⟩))).length := by
            rw [List.length_set]
            exact hkl
          rw [dif_pos hkl2]
          have hget : (xs.set k (deleteV (p2 ++ [t]) (xs.get ⟨k, hkl⟩))).get ⟨k, hkl2⟩ =
              deleteV (p2 ++ [t]) (xs.get ⟨k, hkl⟩) := List.getElem_set_self _
          rw [hget]
          exact resolveV_deleteV p2 (xs.get ⟨k, hkl⟩) l t i hres hp hi
        · rw [dif_neg hkl] at hres
          exact absurd hres (by simp)
  | _ :: _, .null, _, _, _, hres, _, _ => by simp [resolveV] at hres
  | _ :: _, .bool _, _, _, _, hres, _, _ => by simp [resolveV] at hres
  | _ :: _, .num _, _, _, _, hres, _, _ => by simp [resolveV] at hres
  | _ :: _, .str _, _, _, _, hres, _, _ => by simp [resolveV] at hres

/-- Diffing fields all of which the right object holds unchanged yields
nothing. -/
theorem diffFields_nilOf : ∀ (a b : List (String × ValueT)) (q : List String),
    (∀ kv ∈ a, lookupF kv.1 b = some kv.2) → diffFields q b a = []
  | [], _, _, _ => rfl
  | (k, v) :: rest, b, q, h => by
      have hk := h (k, v) (List.mem_cons_self _ _)
      show (match lookupF k b with
        | some rv => diffV (q ++ [k]) v rv
        | Option.none => [.remove (q ++ [k])]) ++ diffFields q b rest = []
      rw [hk]
      show diffV (q ++ [k]) v v ++ diffFields q b rest = []
      rw [diffV_self,
        diffFields_nilOf rest b q (fun kv hv => h kv (List.mem_cons_of_mem _ hv))]
      rfl

/-- `diffFields` only looks the walked keys up in the right object. -/
theorem diffFields_congr : ∀ (a b b2 : List (String × ValueT)) (q : List String),
    (∀ kv ∈ a, lookupF kv.1 b = lookupF kv.1 b2) → diffFields q b a = diffFields q b2 a
  | [], _, _, _, _ => rfl
  | (k, v) :: rest, b, b2, q, h => by
      have hk := h (k, v) (List.mem_cons_self _ _)
      show (match lookupF k b with
        | some rv => diffV (q ++ [k]) v rv
        | Option.none => [.remove (q ++ [k])]) ++ diffFields q b rest =
        (match lookupF k b2 with
         | some rv => diffV (q ++ [k]) v rv
         | Option.none => [.remove (q ++ [k])]) ++ diffFields q b2 rest
      rw [hk, diffFields_congr rest b b2 q (fun kv hv => h kv (List.mem_cons_of_mem _ hv))]

/-- Diffing an object against itself with one present key overwritten
reduces to the diff at that key. -/
theorem diffFields_objSet : ∀ (fs : List (String × ValueT)) (q : List String) (s : String)
    (child del : ValueT), keysNodupF fs = true → lookupF s fs = some child →
    diffFields q (objSet s del fs) fs = diffV (q ++ [s]) child del
  | [], _, _, _, _, _, hl => by simp [lookupF] at hl
  | (k, v) :: rest, q, s, child, del, hnd, hl => by
      simp only [keysNodupF, Bool.and_eq_true] at hnd
      by_cases hk : s = k
      · subst hk
        simp only [lookupF, if_pos rfl] at hl
        obtain rfl : v = child := Option.some_inj.mp hl
        have hset : objSet s del ((s, v) :: rest) = (s, del) :: rest := by
          simp [objSet]
        rw [hset]
        show (match lookupF s ((s, del) :: rest) with
          | some rv => diffV (q ++ [s]) v rv
          | Option.none => [.remove (q ++ [s])]) ++
            diffFields q ((s, del) :: rest) rest = _
        rw [show lookupF s ((s, del) :: rest) = some del from by simp [lookupF]]
        show diffV (q ++ [s]) v del ++ diffFields q ((s, del) :: rest) rest = _
        have hrest : diffFields q ((s, del) :: rest) rest = [] := by
          refine diffFields_nilOf rest ((s, del) :: rest) q ?_
          intro kv hv
          have hne : ¬kv.1 = s := by
            have := List.all_eq_true.mp hnd.1 kv hv
            simpa using this
          show lookupF kv.1 ((s, del) :: rest) = some kv.2
          rw [show lookupF kv.1 ((s, del) :: rest) = lookupF kv.1 rest from by
            simp [lookupF, if_neg hne]]
          exact lookupF_of_mem_nodup rest kv.1 kv.2 hnd.2 (by simpa using hv)
        rw [hrest]
        exact List.append_nil _
      · have hne : ¬s = k := hk
        simp only [lookupF, if_neg hne] at hl
        have hset : objSet s del ((k, v) :: rest) = (k, v) :: objSet s del rest := by
          simp [objSet, if_neg hne]
        rw [hset]
        show (match lookupF k ((k, v) :: objSet s del rest) with
          | some rv => diffV (q ++ [k]) v rv
          | Option.none => [.remove (q ++ [k])]) ++
            diffFields q ((k, v) :: objSet s del rest) rest = _
        rw [show lookupF k ((k, v) :: objSet s del rest) = some v from by simp [lookupF]]
        show diffV (q ++ [k]) v v ++ diffFields q ((k, v) :: objSet s del rest) rest = _
        rw [diffV_self]
        have hcongr : diffFields q ((k, v) :: objSet s del rest) rest =
            diffFields q (objSet s del rest) rest := by
          refine diffFields_congr rest _ _ q ?_
          intro kv hv
          have hnek : ¬kv.1 = k := by
            have := List.all_eq_true.mp hnd.1 kv hv
            simpa using this
          simp [lookupF, if_neg hnek]
        rw [hcongr, diffFields_objSet rest q s child del hnd.2 hl]
        rfl

/-- The add pass of an object diff is empty when the right object
introduces no new keys. -/
theorem diffAdds_nil : ∀ (b a : List (String × ValueT)) (q : List String),
    (∀ kv ∈ b, kv.1 ∈ a.map Prod.fst) →
    (b.filterMap fun kv =>
      match lookupF kv.1 a with
      | some _ => Option.none
      | Option.none => some (PatchOp.add (q ++ [kv.1]) kv.2)) = []
  | [], _, _, _ => rfl
  | kv :: rest, a, q, h => by
      obtain ⟨v, hv⟩ := lookupF_isSome_of_mem a kv.1 (h kv (List.mem_cons_self _ _))
      rw [List.filterMap_cons]
      simp only [hv]
      exact diffAdds_nil rest a q (fun kv2 h2 => h kv2 (List.mem_cons_of_mem _ h2))

theorem diffItems_self (q : List String) : ∀ (l : List ValueT) (j : Nat),
    diffItems q j l l = []
  | [], _ => rfl
  | x :: xs, j => by
      show diffV (q ++ [natToStr j]) x x ++ diffItems q (j + 1) xs xs = []
      rw [diffV_self, diffItems_self q xs (j + 1)]
      rfl

/-- Diffing an array against itself with one index overwritten reduces
to the diff at that index. -/
theorem diffItems_set (q : List String) : ∀ (xs : List ValueT) (k j : Nat) (del : ValueT)
    (h : k < xs.length),
    diffItems q j xs (xs.set k del) = diffV (q ++ [natToStr (j + k)]) (xs.get ⟨k, h⟩) del
  | [], k, j, del, h => by simp at h
  | x :: xs, 0, j, del, h => by
      show diffV (q ++ [natToStr j]) x del ++ diffItems q (j + 1) xs xs = _
      rw [diffItems_self q xs (j + 1)]
      show diffV (q ++ [natToStr j]) x del ++ [] = diffV (q ++ [natToStr (j + 0)]) x del
      rw [List.append_nil, Nat.add_zero]
  | x :: xs, k + 1, j, del, h => by
      show diffV (q ++ [natToStr j]) x x ++ diffItems q (j + 1) xs (xs.set k del) = _
      rw [diffV_self, diffItems_set q xs k (j + 1) del (by simpa using h)]
      have harith : j + 1 + k = j + (k + 1) := by omega
      rw [harith]
      rfl

/-- Removing index `i` shifts the pairwise diffs: the common prefix
contributes nothing and the tail pairs each element with its
successor. -/
theorem diffItems_eraseIdx_shift (q : List String) : ∀ (i : Nat) (l : List ValueT) (j : Nat),
    diffItems q j l (l.eraseIdx i) = diffItems q (j + i) (l.drop i) (l.drop (i + 1))
  | 0, l, j => by
      cases l with
      | nil => rfl
      | cons x xs => rfl
  | i + 1, [], j => rfl
  | i + 1, x :: xs, j => by
      show diffV (q ++ [natToStr j]) x x ++ diffItems q (j + 1) xs (xs.eraseIdx i) = _
      rw [diffV_self, diffItems_eraseIdx_shift q i xs (j + 1)]
      have harith : j + 1 + i = j + (i + 1) := by omega
      rw [harith]
      rfl

/-- Diffing an array against itself with any index removed: the shifted
pairwise diffs followed by a removal of the last index. -/
theorem diffV_arr_eraseIdx_any (q : List String) (l : List ValueT) (i : Nat)
    (hlen : i < l.length) :
    diffV q (.arr l) (.arr (l.eraseIdx i)) =
      diffItems q i (l.drop i) (l.drop (i + 1)) ++
        [.remove (q ++ [natToStr (l.length - 1)])] := by
  have hlenE : (l.eraseIdx i).length + 1 = l.length := List.length_eraseIdx_add_one hlen
  have hne : ValueT.arr l ≠ ValueT.arr (l.eraseIdx i) := by
    intro he
    have hll : l = l.eraseIdx i := by injection he
    have := congrArg List.length hll
    omega
  have hb : beqV (.arr l) (.arr (l.eraseIdx i)) = false := by
    rw [beqV_eq_decide]
    exact decide_eq_false hne
  unfold diffV
  rw [hb]
  simp only [Bool.false_eq_true, if_false]
  have hlt : (l.eraseIdx i).length < l.length := by omega
  rw [if_pos hlt]
  have hrange : l.length - (l.eraseIdx i).length = 1 := by omega
  rw [hrange]
  have h1 : ((List.range 1).reverse.map
      fun k => PatchOp.remove (q ++ [natToStr ((l.eraseIdx i).length + k)])) =
      [PatchOp.remove (q ++ [natToStr ((l.eraseIdx i).length)])] := by
    have hr1 : List.range 1 = [0] := by decide
    rw [hr1]
    rfl
  rw [h1]
  have h2len : (l.eraseIdx i).length = l.length - 1 := by omega
  rw [h2len]
  have h2 := diffItems_eraseIdx_shift q i l 0
  rw [Nat.zero_add] at h2
  rw [h2]

/-- Frame lemma: unassigning index `i` of the array resolved at path
`p` diffs the whole document as the lifted diff of the array against
itself with that index removed. -/
theorem diffV_deleteV_frame : ∀ (p : List String) (doc : ValueT) (q : List String)
    (l : List ValueT) (t : String) (i : Nat),
    resolveV p doc = .ok (.arr l) → pathKeysOk p doc = true →
    parseIdx t = some i → i < l.length →
    diffV q doc (deleteV (p ++ [t]) doc) =
      diffItems (q ++ p) i (l.drop i) (l.drop (i + 1)) ++
        [.remove (q ++ p ++ [natToStr (l.length - 1)])]
  | [], doc, q, l, t, i, hres, _, hp, hi => by
      obtain rfl : doc = .arr l := by simpa [resolveV] using hres
      have hdel : deleteV ([] ++ [t]) (.arr l) = .arr (l.eraseIdx i) := by
        simp only [List.nil_append, deleteV, hp, dif_pos hi]
      rw [hdel, diffV_arr_eraseIdx_any q l i hi]
      simp
  | s :: p2, .obj fs, q, l, t, i, hres, hwk, hp, hi => by
      simp only [resolveV] at hres
      rcases hl : lookupF s fs with _ | child
      · simp only [hl] at hres
        exact absurd hres (by simp)
      · simp only [hl] at hres
        simp only [pathKeysOk, Bool.and_eq_true, hl] at hwk
        have hne : p2 ++ [t] ≠ [] := by simp
        rw [show ((s :: p2) ++ [t]) = s :: (p2 ++ [t]) from rfl,
          deleteV_obj_cons s (p2 ++ [t]) fs hne]
        simp only [hl]
        have hchild := resolveV_deleteV p2 child l t i hres hp hi
        have hcd : child ≠ deleteV (p2 ++ [t]) child := by
          intro he
          rw [← he, hres] at hchild
          have harr : ValueT.arr l = ValueT.arr (l.eraseIdx i) :=
            Except.ok.inj hchild
          have hll : l = l.eraseIdx i := by injection harr
          have := congrArg List.length hll
          have hE : (l.eraseIdx i).length + 1 = l.length :=
            List.length_eraseIdx_add_one hi
          omega
        have hobne : ValueT.obj fs ≠
            ValueT.obj (objSet s (deleteV (p2 ++ [t]) child) fs) := by
          intro he
          have hfs : fs = objSet s (deleteV (p2 ++ [t]) child) fs := by injection he
          have h1 : lookupF s fs = some (deleteV (p2 ++ [t]) child) := by
            rw [hfs]
            exact objSet_lookup_eq fs s child (deleteV (p2 ++ [t]) child) hl
          rw [hl] at h1
          exact hcd (Option.some_inj.mp h1)
        have hb : beqV (.obj fs) (.obj (objSet s (deleteV (p2 ++ [t]) child) fs)) =
            false := by
          rw [beqV_eq_decide]
          exact decide_eq_false hobne
        conv_lhs => unfold diffV
        rw [hb]
        simp only [Bool.false_eq_true, if_false]
        rw [diffFields_objSet fs q s child (deleteV (p2 ++ [t]) child) hwk.1 hl]
        rw [diffAdds_nil (objSet s (deleteV (p2 ++ [t]) child) fs) fs q (fun kv hv => by
          rw [← objSet_keys fs s (deleteV (p2 ++ [t]) child)]
          exact List.mem_map_of_mem Prod.fst hv)]
        rw [List.append_nil]
        rw [diffV_deleteV_frame p2 child (q ++ [s]) l t i hres hwk.2 hp hi]
        simp [List.append_assoc]
  | s :: p2, .arr xs, q, l, t, i, hres, hwk, hp, hi => by
      simp only [resolveV] at hres
      rcases hk : parseIdx s with _ | k
      · simp only [hk] at hres
        exact absurd hres (by simp)
      · simp only [hk] at hres
        by_cases hkl : k < xs.length
        · rw [dif_pos hkl] at hres
          simp only [pathKeysOk, hk] at hwk
          rw [dif_pos hkl] at hwk
          have hne : p2 ++ [t] ≠ [] := by simp
          rw [show ((s :: p2) ++ [t]) = s :: (p2 ++ [t]) from rfl,
            deleteV_arr_cons s (p2 ++ [t]) xs hne]
          simp only [hk, dif_pos hkl]
          have hchild := resolveV_deleteV p2 (xs.get ⟨k, hkl⟩) l t i hres hp hi
          have hcd : xs.get ⟨k, hkl⟩ ≠ deleteV (p2 ++ [t]) (xs.get ⟨k, hkl⟩) := by
            intro he
            rw [← he, hres] at hchild
            have harr : ValueT.arr l = ValueT.arr (l.eraseIdx i) :=
              Except.ok.inj hchild
            have hll : l = l.eraseIdx i := by injection harr
            have := congrArg List.length hll
            have hE : (l.eraseIdx i).length + 1 = l.length :=
              List.length_eraseIdx_add_one hi
            omega
          have hxne : ValueT.arr xs ≠
              ValueT.arr (xs.set k (deleteV (p2 ++ [t]) (xs.get ⟨k, hkl⟩))) := by
            intro he
            have hxx : xs = xs.set k (deleteV (p2 ++ [t]) (xs.get ⟨k, hkl⟩)) := by
              injection he
            have h1 : xs[k]? =
                (xs.set k (deleteV (p2 ++ [t]) (xs.get ⟨k, hkl⟩)))[k]? := by
              rw [← hxx]
            rw [List.getElem?_set_self hkl] at h1
            rw [List.getElem?_eq_getElem hkl] at h1
            exact hcd (Option.some_inj.mp h1)
          have hb : beqV (.arr xs)
              (.arr (xs.set k (deleteV (p2 ++ [t]) (xs.get ⟨k, hkl⟩)))) = false := by
            rw [beqV_eq_decide]
            exact decide_eq_false hxne
          conv_lhs => unfold diffV
          rw [hb]
          simp only [Bool.false_eq_true, if_false]
          rw [List.length_set]
          rw [if_neg (lt_irrefl xs.length), Nat.sub_self]
          rw [show List.range 0 = [] from rfl, List.filterMap_nil, List.append_nil]
          rw [diffItems_set q xs k 0 (deleteV (p2 ++ [t]) (xs.get ⟨k, hkl⟩)) hkl]
          rw [Nat.zero_add, natToStr_parseIdx s k hk]
          rw [diffV_deleteV_frame p2 (xs.get ⟨k, hkl⟩) (q ++ [s]) l t i hres hwk hp hi]
          simp [List.append_assoc]
        · rw [dif_neg hkl] at hres
          exact absurd hres (by simp)
  | _ :: _, .null, _, _, _, _, hres, _, _, _ => by simp [resolveV] at hres
  | _ :: _, .bool _, _, _, _, _, hres, _, _, _ => by simp [resolveV] at hres
  | _ :: _, .num _, _, _, _, _, hres, _, _, _ => by simp [resolveV] at hres
  | _ :: _, .str _, _, _, _, _, hres, _, _, _ => by simp [resolveV] at hres

/-- For all-scalar arrays the shifted pairwise diffs are exactly the
in-place replaces at the indices whose value changes. -/
theorem diffItems_drop_scalar (p : List String) (l : List ValueT) (i : Nat)
    (hs : ∀ v ∈ l, isContainer v = false) :
    diffItems p i (l.drop i) (l.drop (i + 1)) = shiftReplaces p i (l.drop i) := by
  have h1 : l.drop (i + 1) = (l.drop i).tail := (List.tail_drop l i).symm
  rw [h1]
  exact diffItems_tail p (l.drop i) i (fun v hv => hs v (List.mem_of_mem_drop hv))

def docC8 : ValueT := .obj [("numbers", .arr [.str "one", .str "two", .str "three"])]

def docC8ce : ValueT := .obj [("numbers", .arr [.str "a", .str "b", .str "b"])]

/-- C8 counterexample: for the document `{numbers:["a","b","b"]}` with
interior index 1 unassigned, the produced patch is just
`[remove /numbers/2]` — it contains no replace of the removed index
with its successor, so the claimed two-operation shape does not hold
for every array. -/
theorem c8_counterexample :
    fromSystemPtr docC8ce ["numbers", "1"] = .ok ⟨some (.str "b"), ["numbers", "1"]⟩ ∧
    intoResultPtr docC8ce ⟨Option.none, ["numbers", "1"]⟩ =
      .ok [.remove ["numbers", "2"]] ∧
    ([PatchOp.remove ["numbers", "2"]] : PatchL) ≠
      [.replace ["numbers", "1"] (.str "b"), .remove ["numbers", "2"]] := by
  refine ⟨by decide, by decide, by decide⟩

/-- C8 (amended): unassigning index `i` of the `n`-element array
resolved at any path in the document produces the pairwise structural
diffs of the shifted positions — the old element at each `j ≥ i`
diffed against the old element at `j + 1`, which is a whole-element
replace exactly when both are scalars and differ, nothing when they
are equal, and a recursive diff for containers — followed by one
remove of the last index `n - 1`. Conjuncts: (i) the general shape,
for an array at an arbitrary path (the `pathKeysOk` hypothesis is the
`serde_json` object representation invariant: a `BTreeMap` has unique
keys); (ii) for all-scalar arrays the pairwise diffs are exactly the
in-place replaces at the indices whose value changes; (iii) the
repository's own nested instance `{numbers: [one, two, three]}` with
index 1 unassigned gives `[replace /numbers/1 three, remove
/numbers/2]`; (iv) with container elements the pairwise diff recurses
into the element instead of replacing it wholesale. -/
theorem c8_array_mid_deletion :
    (∀ (doc : ValueT) (p : List String) (t : String) (i : Nat) (l : List ValueT),
      resolveV p doc = .ok (.arr l) → pathKeysOk p doc = true →
      parseIdx t = some i → i < l.length →
      intoResultPtr doc ⟨Option.none, p ++ [t]⟩ =
        .ok (diffItems p i (l.drop i) (l.drop (i + 1)) ++
          [.remove (p ++ [natToStr (l.length - 1)])])) ∧
    (∀ (p : List String) (l : List ValueT) (i : Nat),
      (∀ v ∈ l, isContainer v = false) →
      diffItems p i (l.drop i) (l.drop (i + 1)) = shiftReplaces p i (l.drop i)) ∧
    (fromSystemPtr docC8 ["numbers", "1"] = .ok ⟨some (.str "two"), ["numbers", "1"]⟩ ∧
      intoResultPtr docC8 ⟨Option.none, ["numbers", "1"]⟩ =
        .ok [.replace ["numbers", "1"] (.str "three"), .remove ["numbers", "2"]]) ∧
    intoResultPtr (.obj [("os", .arr [.obj [("a", .num 1)], .obj [("a", .num 2)],
        .obj [("a", .num 3)]])]) ⟨Option.none, ["os", "1"]⟩ =
      .ok [.replace ["os", "1", "a"] (.num 3), .remove ["os", "2"]] := by
  refine ⟨?_, ?_, ⟨by decide, by decide⟩, by decide⟩
  · intro doc p t i l hres hwk hp hi
    show Except.ok (diffV [] doc (deleteV (p ++ [t]) doc)) = _
    rw [diffV_deleteV_frame p doc [] l t i hres hwk hp hi]
    simp
  · intro p l i hs
    exact diffItems_drop_scalar p l i hs

theorem c8_array_mid_deletion_witness :
    (resolveV ["numbers"] docC8 =
        .ok (.arr [.str "one", .str "two", .str "three"]) ∧
      pathKeysOk ["numbers"] docC8 = true ∧ parseIdx "1" = some 1 ∧
      (1 : Nat) < 3 ∧
      intoResultPtr docC8 ⟨Option.none, ["numbers"] ++ ["1"]⟩ =
        .ok (diffItems ["numbers"] 1
            ([ValueT.str "one", .str "two", .str "three"].drop 1)
            ([ValueT.str "one", .str "two", .str "three"].drop 2) ++
          [.remove (["numbers"] ++ [natToStr 2])])) ∧
    ((∀ v ∈ [ValueT.str "p", ValueT.str "q"], isContainer v = false) ∧
      diffItems [] 0 ([ValueT.str "p", ValueT.str "q"].drop 0)
          ([ValueT.str "p", ValueT.str "q"].drop 1) =
        shiftReplaces [] 0 ([ValueT.str "p", ValueT.str "q"].drop 0)) :=
  ⟨⟨by decide, by decide, by decide, by decide,
      c8_array_mid_deletion.1 docC8 ["numbers"] "1" 1
        [.str "one", .str "two", .str "three"]
        (by decide) (by decide) (by decide) (by decide)⟩,
    ⟨by decide, c8_array_mid_deletion.2.1 [] [.str "p", .str "q"] 0 (by decide)⟩⟩

/-- C2 counterexample: a replace-kind diff op does not match a `Delete`
intent and `Delete` is not `Any`, yet the filter of `find_workflow`
accepts the candidate — and end to end, a domain whose only intent is
`delete(plus_one)` still plans the scalar update `0 → 2` (two work
units), where the claim as stated would require the candidate to be
skipped and the search to fail. -/
theorem c2_counterexample :
    intentFilter (.replace [] (.num 2)) Operation.delete = true ∧
    opMatches (.replace [] (.num 2)) Operation.delete = false ∧
    Operation.delete ≠ Operation.any ∧
    planSize (findPlanF 50 domDelete (.num 0) (.num 2)) = some (.ok 2) := by
  refine ⟨by decide, by decide, by decide, by decide⟩

/-- C2 (amended): a candidate intent is instantiated and tried if and
only if the diff op's kind matches the intent's operation OR the
intent's operation is not `Any`; since `find_jobs_at` already excludes
`None` intents and `Any` matches every kind, every candidate surfaced
to the loop passes the filter. -/
theorem c2_intent_filter :
    (∀ (op : PatchOp) (o : Operation),
      intentFilter op o = (opMatches op o || decide (o ≠ Operation.any))) ∧
    (∀ (op : PatchOp) (o : Operation), o ≠ Operation.none → intentFilter op o = true) := by
  constructor
  · intro op o
    rfl
  · intro op o ho
    rcases o with _ | _ | _ | _ | _
    · cases op <;> rfl
    · cases op <;> rfl
    · cases op <;> rfl
    · cases op <;> rfl
    · exact absurd rfl ho

theorem c2_intent_filter_witness :
    Operation.delete ≠ Operation.none ∧
    intentFilter (.add [] .null) Operation.delete = true :=
  ⟨by decide, c2_intent_filter.2 (.add [] .null) Operation.delete (by decide)⟩

/-- The benign error set of the candidate-iteration layer (§7 of the
spec): condition-failed, loop-detected, not-found, and a task failure
whose source is condition-failed. -/
def benignPlanErr : PlanErr → Bool
  | .taskFailure _ .conditionFailed => true
  | .loopDetected => true
  | .conditionFailed => true
  | .notFound => true
  | _ => false

/-- C5: during planning, when trying a candidate fails with a benign
error (ConditionFailed, LoopDetected, NotFound, or a TaskFailure whose
source is ConditionFailed) the candidate loop continues with the next
candidate as if the candidate were not there; any other error aborts
the whole iteration and is returned as the result. -/
theorem c5_error_propagation (dm : DomainD) (tfuel : Nat) (s : ValueT)
    (w : WorkflowW) (d : Nat) (ctx : ContextC) (op : PatchOp) (i : Intent)
    (is' : List Intent) (stack : List Node) (e : PlanErr)
    (h1 : intentFilter op i.operation = true)
    (h2 : tryTask dm tfuel (i.task.withCtx ctx) s w 0 = some (.error e)) :
    (benignPlanErr e = true →
      processIntents dm tfuel s w d ctx op (i :: is') stack =
        processIntents dm tfuel s w d ctx op is' stack) ∧
    (benignPlanErr e = false →
      processIntents dm tfuel s w d ctx op (i :: is') stack = some (.error e)) := by
  constructor <;> intro hb <;>
    rcases e with msg | ⟨tid, src⟩ | _ | _ | _ | _ | msg | msg <;>
      first
        | (rcases src with _ | m | m | m <;>
            first
              | (simp [benignPlanErr] at hb; done)
              | ((conv_lhs => unfold processIntents); rw [h1, h2]; rfl))
        | (simp [benignPlanErr] at hb; done)
        | ((conv_lhs => unfold processIntents); rw [h1, h2]; rfl)

def taskBoom : TaskT := .action "boom" baseCtx (fun _ _ => .error (.runtime "boom"))

def w0C5 : WorkflowW :=
  ⟨[⟨mkWorkId "a1" baseCtx (.num 0), "a1", baseCtx, pointerSetStr "a"⟩], []⟩

theorem c5_error_propagation_witness :
    (processIntents emptyDomain 5 (.num 0) w0C5 0 baseCtx (.add [] .null)
        [mkIntent .update taskSetA] [] =
      processIntents emptyDomain 5 (.num 0) w0C5 0 baseCtx (.add [] .null) [] []) ∧
    (processIntents emptyDomain 5 (.num 0) emptyWorkflow 0 baseCtx (.add [] .null)
        [mkIntent .update taskBoom] [] =
      some (.error (.taskFailure "boom" (.runtime "boom")))) :=
  ⟨(c5_error_propagation emptyDomain 5 (.num 0) w0C5 0 baseCtx (.add [] .null)
      (mkIntent .update taskSetA) [] [] .loopDetected (by decide) rfl).1 rfl,
    (c5_error_propagation emptyDomain 5 (.num 0) emptyWorkflow 0 baseCtx (.add [] .null)
      (mkIntent .update taskBoom) [] [] (.taskFailure "boom" (.runtime "boom"))
      (by decide) rfl).2 rfl⟩

theorem cmpN_eq_iff (a b : Nat) : cmpN a b = .eq ↔ a = b := by
  unfold cmpN
  by_cases h1 : a < b
  · simp [h1]
    omega
  · by_cases h2 : b < a <;> simp [h1, h2] <;> omega

theorem cmpN_lt_iff (a b : Nat) : cmpN a b = .lt ↔ a < b := by
  unfold cmpN
  by_cases h1 : a < b
  · simp [h1]
  · by_cases h2 : b < a <;> simp [h1, h2]

theorem cmpN_gt_iff (a b : Nat) : cmpN a b = .gt ↔ b < a := by
  unfold cmpN
  by_cases h1 : a < b
  · simp [h1]
    omega
  · by_cases h2 : b < a <;> simp [h1, h2]

theorem cmpNatList_eq_iff : ∀ (a b : List Nat), cmpNatList a b = .eq ↔ a = b
  | [], [] => by simp [cmpNatList]
  | [], _ :: _ => by simp [cmpNatList]
  | _ :: _, [] => by simp [cmpNatList]
  | x :: xs, y :: ys => by
      simp only [cmpNatList]
      rcases hc : cmpN x y with _ | _ | _
      · simp only [Ordering.then]
        have hxy : x < y := (cmpN_lt_iff x y).mp hc
        constructor
        · intro h; exact absurd h (by simp)
        · intro h
          injection h with h1 _
          omega
      · simp only [Ordering.then]
        have hxy : x = y := (cmpN_eq_iff x y).mp hc
        subst hxy
        rw [cmpNatList_eq_iff xs ys]
        simp
      · simp only [Ordering.then]
        have hxy : y < x := (cmpN_gt_iff x y).mp hc
        constructor
        · intro h; exact absurd h (by simp)
        · intro h
          injection h with h1 _
          omega

theorem cmpNatList_gt_iff : ∀ (a b : List Nat), cmpNatList a b = .gt ↔ cmpNatList b a = .lt
  | [], [] => by simp [cmpNatList]
  | [], _ :: _ => by simp [cmpNatList]
  | _ :: _, [] => by simp [cmpNatList]
  | x :: xs, y :: ys => by
      simp only [cmpNatList]
      rcases hc : cmpN x y with _ | _ | _
      · have hyx : cmpN y x = .gt := (cmpN_gt_iff y x).mpr ((cmpN_lt_iff x y).mp hc)
        simp [Ordering.then, hyx]
      · have hxy : x = y := (cmpN_eq_iff x y).mp hc
        have hyx : cmpN y x = .eq := (cmpN_eq_iff y x).mpr hxy.symm
        simp only [Ordering.then, hyx]
        exact cmpNatList_gt_iff xs ys
      · have hyx : cmpN y x = .lt := (cmpN_lt_iff y x).mpr ((cmpN_gt_iff x y).mp hc)
        simp [Ordering.then, hyx]

theorem cmpNatList_lt_trans : ∀ (a b c : List Nat),
    cmpNatList a b = .lt → cmpNatList b c = .lt → cmpNatList a c = .lt
  | [], [], _, hab, _ => by simp [cmpNatList] at hab
  | [], _ :: _, [], _, hbc => by simp [cmpNatList] at hbc
  | [], _ :: _, _ :: _, _, _ => by simp [cmpNatList]
  | _ :: _, [], _, hab, _ => by simp [cmpNatList] at hab
  | _ :: _, _ :: _, [], _, hbc => by simp [cmpNatList] at hbc
  | x :: xs, y :: ys, z :: zs, hab, hbc => by
      simp only [cmpNatList] at hab hbc ⊢
      rcases h1 : cmpN x y with _ | _ | _ <;> rw [h1] at hab <;>
        rcases h2 : cmpN y z with _ | _ | _ <;> rw [h2] at hbc <;>
          simp only [Ordering.then] at hab hbc
      · have : x < z := by
          have := (cmpN_lt_iff x y).mp h1
          have := (cmpN_lt_iff y z).mp h2
          omega
        simp [Ordering.then, (cmpN_lt_iff x z).mpr this]
      · have hyz := (cmpN_eq_iff y z).mp h2
        have : x < z := by
          have := (cmpN_lt_iff x y).mp h1
          omega
        simp [Ordering.then, (cmpN_lt_iff x z).mpr this]
      · exact absurd hbc (by simp)
      · have hxy := (cmpN_eq_iff x y).mp h1
        have : x < z := by
          have := (cmpN_lt_iff y z).mp h2
          omega
        simp [Ordering.then, (cmpN_lt_iff x z).mpr this]
      · have hxy := (cmpN_eq_iff x y).mp h1
        have hyz := (cmpN_eq_iff y z).mp h2
        have : cmpN x z = .eq := (cmpN_eq_iff x z).mpr (hxy.trans hyz)
        simp only [Ordering.then, this]
        exact cmpNatList_lt_trans xs ys zs hab hbc
      · exact absurd hbc (by simp)
      · exact absurd hab (by simp)
      · exact absurd hab (by simp)
      · exact absurd hab (by simp)

theorem cmpIntent_lt_trans (a b c : Intent) (hab : cmpIntent a b = .lt)
    (hbc : cmpIntent b c = .lt) : cmpIntent a c = .lt :=
  cmpNatList_lt_trans (intentKey a) (intentKey b) (intentKey c) hab hbc

theorem cmpIntent_gt_iff (a b : Intent) : cmpIntent a b = .gt ↔ cmpIntent b a = .lt :=
  cmpNatList_gt_iff (intentKey a) (intentKey b)

/-- Elements of an ordered insert come from the inserted element or the
original set. -/
theorem insertIntent_mem : ∀ (l : List Intent) (i j : Intent),
    j ∈ insertIntent i l → j = i ∨ j ∈ l
  | [], i, j, h => by
      simp only [insertIntent, List.mem_singleton] at h
      exact Or.inl h
  | x :: xs, i, j, h => by
      simp only [insertIntent] at h
      rcases hc : cmpIntent i x with _ | _ | _ <;> rw [hc] at h
      · rcases List.mem_cons.mp h with h | h
        · exact Or.inl h
        · exact Or.inr h
      · exact Or.inr h
      · rcases List.mem_cons.mp h with h | h
        · exact Or.inr (h ▸ List.mem_cons_self x xs)
        · rcases insertIntent_mem xs i j h with h | h
          · exact Or.inl h
          · exact Or.inr (List.mem_cons_of_mem x h)

/-- Ordered insertion preserves strict sortedness in the intent order. -/
theorem insertIntent_sorted : ∀ (l : List Intent) (i : Intent),
    List.Pairwise (fun a b => cmpIntent a b = .lt) l →
    List.Pairwise (fun a b => cmpIntent a b = .lt) (insertIntent i l)
  | [], i, _ => by simp [insertIntent]
  | x :: xs, i, hs => by
      rcases List.pairwise_cons.mp hs with ⟨hx, hxs⟩
      simp only [insertIntent]
      rcases hc : cmpIntent i x with _ | _ | _
      · refine List.pairwise_cons.mpr ⟨?_, hs⟩
        intro b hb
        rcases List.mem_cons.mp hb with hb | hb
        · rw [hb]; exact hc
        · exact cmpIntent_lt_trans i x b hc (hx b hb)
      · exact hs
      · refine List.pairwise_cons.mpr ⟨?_, insertIntent_sorted xs i hxs⟩
        intro b hb
        rcases insertIntent_mem xs i b hb with hb | hb
        · rw [hb]
          exact (cmpIntent_gt_iff i x).mp hc
        · exact hx b hb

/-- Well-formedness of a domain: every routed intent queue is strictly
sorted in the intent order (true of every domain built through
`Domain::job`, see `jobD_preserves_wf`). -/
def DomainWF (d : DomainD) : Prop :=
  ∀ rq ∈ d.router, List.Pairwise (fun a b => cmpIntent a b = .lt) rq.2

theorem emptyDomain_wf : DomainWF emptyDomain := by
  intro rq h
  simp [emptyDomain] at h

theorem lookupRoute_mem : ∀ (router : List (List Seg × List Intent)) (r : List Seg) q,
    lookupRoute r router = some q → (r, q) ∈ router
  | [], r, q, h => by simp [lookupRoute] at h
  | (r2, q2) :: rest, r, q, h => by
      by_cases hr : r = r2
      · simp only [lookupRoute, if_pos hr] at h
        subst hr
        rw [Option.some_inj.mp h]
        exact List.mem_cons_self _ _
      · simp only [lookupRoute, if_neg hr] at h
        exact List.mem_cons_of_mem _ (lookupRoute_mem rest r q h)

theorem removeRoute_mem : ∀ (router : List (List Seg × List Intent)) (r : List Seg) rq,
    rq ∈ removeRoute r router → rq ∈ router
  | [], r, rq, h => by simp [removeRoute] at h
  | (r2, q2) :: rest, r, rq, h => by
      by_cases hr : r = r2
      · simp only [removeRoute, if_pos hr] at h
        exact List.mem_cons_of_mem _ h
      · simp only [removeRoute, if_neg hr] at h
        rcases List.mem_cons.mp h with h | h
        · exact h ▸ List.mem_cons_self _ _
        · exact List.mem_cons_of_mem _ (removeRoute_mem rest r rq h)

/-- `Domain::job` preserves queue sortedness. -/
theorem jobD_preserves_wf (d : DomainD) (route : List Seg) (i : Intent) (d' : DomainD)
    (hwf : DomainWF d) (h : jobD d route i = some d') : DomainWF d' := by
  unfold jobD at h
  by_cases hdup : ((lookupRoute route d.router).getD []).any
      (fun x => decide (x.task.id = i.task.id)) = true
  · rw [if_pos hdup] at h
    exact absurd h (by simp)
  · rw [if_neg hdup] at h
    have hq : List.Pairwise (fun a b => cmpIntent a b = .lt)
        ((lookupRoute route d.router).getD []) := by
      rcases hl : lookupRoute route d.router with _ | q
      · simp [hl]
      · simpa [hl] using hwf (route, q) (lookupRoute_mem d.router route q hl)
    have hq' : List.Pairwise (fun a b => cmpIntent a b = .lt)
        (insertIntent i ((lookupRoute route d.router).getD [])) :=
      insertIntent_sorted _ i hq
    have hrouter : ∀ rq ∈ removeRoute route d.router ++
        [(route, insertIntent i ((lookupRoute route d.router).getD []))],
        List.Pairwise (fun a b => cmpIntent a b = .lt) rq.2 := by
      intro rq hrq
      rcases List.mem_append.mp hrq with hrq | hrq
      · exact hwf rq (removeRoute_mem d.router route rq hrq)
      · rcases List.mem_singleton.mp hrq with rfl
        exact hq'
    by_cases hupd : (!((lookupRoute route d.router).getD []).any
        (fun x => cmpIntent x i = Ordering.eq)) = true
    · rw [if_pos hupd] at h
      rcases hidx : lookupS i.task.id d.index with _ | old
      · rw [hidx] at h
        have hd' : d' = ⟨removeRoute route d.router ++
            [(route, insertIntent i ((lookupRoute route d.router).getD []))],
            (i.task.id, route) :: d.index⟩ := (Option.some_inj.mp h).symm
        rw [hd']
        exact hrouter
      · rw [hidx] at h
        exact absurd h (by simp)
    · rw [if_neg hupd] at h
      have hd' : d' = ⟨removeRoute route d.router ++
          [(route, insertIntent i ((lookupRoute route d.router).getD []))],
          d.index⟩ := (Option.some_inj.mp h).symm
      rw [hd']
      exact hrouter

theorem bestMatchR_mem : ∀ (router : List (List Seg × List Intent)) (p : List String)
    (r : List Seg) (args : List (String × String)) (q : List Intent),
    bestMatchR router p = some (r, args, q) → (r, q) ∈ router
  | [], p, r, args, q, h => by simp [bestMatchR] at h
  | (r2, q2) :: rest, p, r, args, q, h => by
      simp only [bestMatchR] at h
      rcases hm : matchTemplate r2 p with _ | margs <;> simp only [hm] at h
      · exact List.mem_cons_of_mem _ (bestMatchR_mem rest p r args q h)
      · rcases hb : bestMatchR rest p with _ | ⟨r3, args3, q3⟩ <;> simp only [hb] at h
        · have hp := Option.some_inj.mp h
          rw [Prod.mk.injEq] at hp
          obtain ⟨h1, h2⟩ := hp
          rw [Prod.mk.injEq] at h2
          obtain ⟨h2, h3⟩ := h2
          subst h1; subst h3
          exact List.mem_cons_self _ _
        · by_cases hcmp : cmpNatList (specKey r3) (specKey r2) = Ordering.gt
          · rw [if_pos hcmp] at h
            have hp := Option.some_inj.mp h
            rw [Prod.mk.injEq] at hp
            obtain ⟨h1, h2⟩ := hp
            rw [Prod.mk.injEq] at h2
            obtain ⟨h2, h3⟩ := h2
            subst h1; subst h3
            exact List.mem_cons_of_mem _ (bestMatchR_mem rest p r3 args3 q3 hb)
          · rw [if_neg hcmp] at h
            have hp := Option.some_inj.mp h
            rw [Prod.mk.injEq] at hp
            obtain ⟨h1, h2⟩ := hp
            rw [Prod.mk.injEq] at h2
            obtain ⟨h2, h3⟩ := h2
            subst h1; subst h3
            exact List.mem_cons_self _ _

/-- C6: for every well-formed domain and every path, `find_jobs_at`
yields exactly the intents registered at the router's best-matching
template whose operation is not `None`, in the deterministic set order:
composite before atomic, then by operation, then by ascending priority,
then by job id (the strict `cmpIntent` order of `impl Ord for
Intent`). -/
theorem c6_find_jobs_ordered (d : DomainD) (p : List String)
    (args : List (String × String)) (out : List Intent) (hwf : DomainWF d)
    (h : findJobsAt d p = some (args, out)) :
    List.Pairwise (fun a b => cmpIntent a b = .lt) out ∧
    ∃ r q, bestMatchR d.router p = some (r, args, q) ∧
      out = q.filter (fun i => decide (i.operation ≠ Operation.none)) := by
  unfold findJobsAt at h
  rcases hb : bestMatchR d.router p with _ | ⟨r, args2, q⟩
  · rw [hb] at h; exact absurd h (by simp)
  · simp only [hb] at h
    have hp := Option.some_inj.mp h
    rw [Prod.mk.injEq] at hp
    obtain ⟨h1, h2⟩ := hp
    subst h1
    constructor
    · rw [← h2]
      exact List.Pairwise.filter _ (hwf (r, q) (bestMatchR_mem d.router p r args2 q hb))
    · exact ⟨r, q, rfl, h2.symm⟩

theorem c6_find_jobs_ordered_witness :
    List.Pairwise (fun a b => cmpIntent a b = Ordering.lt)
      [mkIntent .update taskMinusOne, mkIntent .update taskPlusOne] ∧
    ∃ r q, bestMatchR domA.router [] = some (r, [], q) ∧
      [mkIntent .update taskMinusOne, mkIntent .update taskPlusOne] =
        q.filter (fun i => decide (i.operation ≠ Operation.none)) :=
  c6_find_jobs_ordered domA [] []
    [mkIntent .update taskMinusOne, mkIntent .update taskPlusOne]
    (by unfold DomainWF; decide)
    rfl

/-- The work-unit ids of a partial plan's DAG. -/
def dagIds (w : WorkflowW) : List WorkId := w.dag.map WorkUnit.id

mutual

/-- A successful `try_task` preserves freedom from duplicate work-unit
ids: the action branch refuses known ids (`LoopDetected`) and prepends
a fresh one; the method branch only chains such steps. -/
theorem tryTask_nodup (dm : DomainD) : ∀ (fuel : Nat) (t : TaskT) (s : ValueT)
    (w : WorkflowW) (sl : Nat) (w' : WorkflowW),
    tryTask dm fuel t s w sl = some (.ok w') → (dagIds w).Nodup → (dagIds w').Nodup
  | 0, _, _, _, _, _, h, _ => by simp [tryTask] at h
  | fuel + 1, .action tid ctx dry, s, w, sl, w', h, hn => by
      unfold tryTask at h
      by_cases hany : w.dag.any (fun u => decide (u.id = mkWorkId tid ctx s)) = true
      · simp only [hany, if_true] at h
        exact absurd h (by simp)
      · simp only [hany, Bool.false_eq_true, if_false] at h
        rcases hd : dry s ctx with e | changes
        · simp only [hd] at h
          exact absurd h (by simp)
        · simp only [hd] at h
          by_cases hc : sl = 0 ∧ changes = []
          · rw [if_pos hc] at h
            exact absurd h (by simp)
          · rw [if_neg hc] at h
            have hw : w' = ⟨⟨mkWorkId tid ctx s, tid, ctx, dry⟩ :: w.dag,
                w.pending ++ changes⟩ := by
              have := Option.some_inj.mp h
              exact (Except.ok.inj this).symm
            subst hw
            simp only [dagIds, List.map_cons]
            refine List.nodup_cons.mpr ⟨?_, hn⟩
            intro hmem
            rcases List.mem_map.mp hmem with ⟨u, hu, hid⟩
            have hfalse : w.dag.any (fun u => decide (u.id = mkWorkId tid ctx s)) = false :=
              Bool.not_eq_true _ ▸ hany
            have := List.any_eq_false.mp hfalse u hu
            simp only [decide_eq_true_eq] at this
            exact this hid
  | fuel + 1, .method tid ctx ex, s, w, sl, w', h, hn => by
      unfold tryTask at h
      rcases he : ex s ctx with e | tasks
      · simp only [he] at h
        exact absurd h (by simp)
      · simp only [he] at h
        rcases hsub : trySubtasks dm fuel tasks ctx.args s w sl with _ | (e | w2)
        · simp only [hsub] at h
          exact absurd h (by simp)
        · simp only [hsub] at h
          exact absurd h (by simp)
        · simp only [hsub] at h
          by_cases hc : sl = 0 ∧ w2.pending = []
          · rw [if_pos hc] at h
            exact absurd h (by simp)
          · rw [if_neg hc] at h
            have hw : w' = w2 := by
              have := Option.some_inj.mp h
              exact (Except.ok.inj this).symm
            subst hw
            exact trySubtasks_nodup dm fuel tasks ctx.args s w sl w' hsub hn

theorem trySubtasks_nodup (dm : DomainD) : ∀ (fuel : Nat) (ts : List TaskT)
    (pargs : List (String × String)) (s : ValueT) (w : WorkflowW) (sl : Nat)
    (w' : WorkflowW),
    trySubtasks dm fuel ts pargs s w sl = some (.ok w') →
    (dagIds w).Nodup → (dagIds w').Nodup
  | fuel, [], pargs, s, w, sl, w', h, hn => by
      unfold trySubtasks at h
      have hw : w' = w := by
        have := Option.some_inj.mp h
        exact (Except.ok.inj this).symm
      subst hw
      exact hn
  | 0, _ :: _, _, _, _, _, _, h, _ => by simp [trySubtasks] at h
  | fuel + 1, t :: ts, pargs, s, w, sl, w', h, hn => by
      unfold trySubtasks at h
      rcases hp : findPathForJob dm
          (pargs.foldl (fun acc kv => acc.withArg kv.1 kv.2) t).id
          (pargs.foldl (fun acc kv => acc.withArg kv.1 kv.2) t).ctx.args
        with msg | path
      · simp only [hp] at h
        exact absurd h (by simp)
      · simp only [hp] at h
        rcases htry : tryTask dm fuel
            ((pargs.foldl (fun acc kv => acc.withArg kv.1 kv.2) t).withPath path)
            s w (sl + 1) with _ | (e | w2)
        · simp only [htry] at h
          exact absurd h (by simp)
        · simp only [htry] at h
          exact absurd h (by simp)
        · simp only [htry] at h
          rcases hap : applyPatch s w2.pending with msg | s2
          · simp only [hap] at h
            exact absurd h (by simp)
          · simp only [hap] at h
            exact trySubtasks_nodup dm fuel ts pargs s2 w2 sl w' h
              (tryTask_nodup dm fuel _ s w (sl + 1) w2 htry hn)

end

/-- Every plan on the search stack is free of duplicate work-unit ids. -/
def StackOK (stack : List Node) : Prop :=
  ∀ n ∈ stack, (dagIds n.2.1).Nodup

theorem processIntents_stackOK (dm : DomainD) (tfuel : Nat) (s : ValueT)
    (w : WorkflowW) (d : Nat) (ctx : ContextC) (op : PatchOp) :
    ∀ (intents : List Intent) (stack stack' : List Node),
    (dagIds w).Nodup → StackOK stack →
    processIntents dm tfuel s w d ctx op intents stack = some (.ok stack') →
    StackOK stack'
  | [], stack, stack', hw, hs, h => by
      unfold processIntents at h
      have : stack' = stack := by
        have := Option.some_inj.mp h
        exact (Except.ok.inj this).symm
      subst this
      exact hs
  | i :: is', stack, stack', hw, hs, h => by
      unfold processIntents at h
      by_cases hf : intentFilter op i.operation = true
      · rw [if_pos hf] at h
        rcases htry : tryTask dm tfuel (i.task.withCtx ctx) s w 0 with _ | (e | w2)
        · simp only [htry] at h
          exact absurd h (by simp)
        · simp only [htry] at h
          rcases e with msg | ⟨tid, src⟩ | _ | _ | _ | _ | msg | msg
          · exact absurd h (by simp)
          · rcases src with _ | m | m | m
            · exact processIntents_stackOK dm tfuel s w d ctx op is' stack stack' hw hs h
            · exact absurd h (by simp)
            · exact absurd h (by simp)
            · exact absurd h (by simp)
          · exact processIntents_stackOK dm tfuel s w d ctx op is' stack stack' hw hs h
          · exact processIntents_stackOK dm tfuel s w d ctx op is' stack stack' hw hs h
          · exact processIntents_stackOK dm tfuel s w d ctx op is' stack stack' hw hs h
          · exact absurd h (by simp)
          · exact absurd h (by simp)
          · exact absurd h (by simp)
        · simp only [htry] at h
          by_cases hpend : w2.pending = []
          · rw [if_pos hpend] at h
            exact processIntents_stackOK dm tfuel s w d ctx op is' stack stack' hw hs h
          · rw [if_neg hpend] at h
            rcases hap : applyPatch s w2.pending with msg | s2
            · simp only [hap] at h
              exact absurd h (by simp)
            · simp only [hap] at h
              refine processIntents_stackOK dm tfuel s w d ctx op is'
                ((s2, ⟨w2.dag, []⟩, d + 1) :: stack) stack' hw ?_ h
              intro n hn
              rcases List.mem_cons.mp hn with hn | hn
              · rw [hn]
                exact tryTask_nodup dm tfuel _ s w 0 w2 htry hw
              · exact hs n hn
      · rw [if_neg hf] at h
        exact processIntents_stackOK dm tfuel s w d ctx op is' stack stack' hw hs h

theorem processOps_stackOK (dm : DomainD) (tfuel : Nat) (tgt : ValueT) (s : ValueT)
    (w : WorkflowW) (d : Nat) :
    ∀ (ops : List PatchOp) (stack stack' : List Node),
    (dagIds w).Nodup → StackOK stack →
    processOps dm tfuel tgt s w d ops stack = some (.ok stack') →
    StackOK stack'
  | [], stack, stack', hw, hs, h => by
      unfold processOps at h
      have : stack' = stack := by
        have := Option.some_inj.mp h
        exact (Except.ok.inj this).symm
      subst this
      exact hs
  | op :: ops, stack, stack', hw, hs, h => by
      unfold processOps at h
      rcases hj : findJobsAt dm op.path with _ | ⟨args, intents⟩
      · simp only [hj] at h
        exact processOps_stackOK dm tfuel tgt s w d ops stack stack' hw hs h
      · simp only [hj] at h
        rcases hr : resolveV op.path tgt with e | tv
        · simp only [hr] at h
          exact absurd h (by simp)
        · simp only [hr] at h
          rcases hpi : processIntents dm tfuel s w d ⟨op.path, args, tv⟩ op intents stack
            with _ | (e | stack2)
          · simp only [hpi] at h
            exact absurd h (by simp)
          · simp only [hpi] at h
            exact absurd h (by simp)
          · simp only [hpi] at h
            exact processOps_stackOK dm tfuel tgt s w d ops stack2 stack' hw
              (processIntents_stackOK dm tfuel s w d ⟨op.path, args, tv⟩ op intents
                stack stack2 hw hs hpi) h

theorem findLoop_nodup (dm : DomainD) (tgt : ValueT) :
    ∀ (fuel : Nat) (stack : List Node) (w' : WorkflowW),
    StackOK stack → findLoop dm tgt fuel stack = some (.ok w') →
    (dagIds w').Nodup
  | 0, _, _, _, h => by simp [findLoop] at h
  | fuel + 1, [], _, _, h => by
      unfold findLoop at h
      exact absurd h (by simp)
  | fuel + 1, (s, w, d) :: rest, w', hs, h => by
      unfold findLoop at h
      by_cases hd : 256 ≤ d
      · rw [if_pos hd] at h
        exact absurd h (by simp)
      · rw [if_neg hd] at h
        rcases hdiff : diffV [] s tgt with _ | ⟨op, ops⟩
        · simp only [hdiff] at h
          have hw : w' = w.reverseW := by
            have := Option.some_inj.mp h
            exact (Except.ok.inj this).symm
          subst hw
          have := hs (s, w, d) (List.mem_cons_self _ _)
          simpa [dagIds, WorkflowW.reverseW, List.map_reverse, List.nodup_reverse] using this
        · simp only [hdiff] at h
          rcases hpo : processOps dm (fuel + 1) tgt s w d (op :: ops) rest
            with _ | (e | stack2)
          · simp only [hpo] at h
            exact absurd h (by simp)
          · simp only [hpo] at h
            exact absurd h (by simp)
          · simp only [hpo] at h
            have hok : StackOK stack2 :=
              processOps_stackOK dm (fuel + 1) tgt s w d (op :: ops) rest stack2
                (hs (s, w, d) (List.mem_cons_self _ _))
                (fun n hn => hs n (List.mem_cons_of_mem _ hn)) hpo
            exact findLoop_nodup dm tgt fuel stack2 w' hok h

/-- C3: every workflow returned by `find_plan` contains no two work
units with identical ids; and inside `try_task`, an action whose
work-unit id already occurs in the partial plan's DAG fails with
`LoopDetected` instead of being appended. -/
theorem c3_loop_freedom :
    (∀ (fuel : Nat) (dm : DomainD) (c t : ValueT) (w' : WorkflowW),
      findPlanF fuel dm c t = some (.ok w') → (w'.dag.map WorkUnit.id).Nodup) ∧
    (∀ (dm : DomainD) (fuel : Nat) (tid : String) (ctx : ContextC)
      (dry : ValueT → ContextC → Except TaskErr PatchL) (s : ValueT)
      (w : WorkflowW) (sl : Nat),
      mkWorkId tid ctx s ∈ w.dag.map WorkUnit.id →
      tryTask dm (fuel + 1) (.action tid ctx dry) s w sl =
        some (.error .loopDetected)) := by
  constructor
  · intro fuel dm c t w' h
    have hok : StackOK [(c, emptyWorkflow, 0)] := by
      intro n hn
      rcases List.mem_cons.mp hn with hn | hn
      · rw [hn]; simp [dagIds, emptyWorkflow]
      · simp at hn
    exact findLoop_nodup dm t fuel [(c, emptyWorkflow, 0)] w' hok h
  · intro dm fuel tid ctx dry s w sl hmem
    unfold tryTask
    have hany : w.dag.any (fun u => decide (u.id = mkWorkId tid ctx s)) = true := by
      rcases List.mem_map.mp hmem with ⟨u, hu, hid⟩
      exact List.any_eq_true.mpr ⟨u, hu, by simp [hid]⟩
    simp only [hany, if_true]

/-- The workflow the planner returns for scenario A (state 0, target 2,
`update(plus_one)` and `update(minus_one)` at the root). -/
def wA : WorkflowW :=
  ⟨[⟨("tests::plus_one", [], .num 2, some (.num 0)), "tests::plus_one",
      ⟨[], [], .num 2⟩, viewIntTargetDry fun v tgt => if v < tgt then v + 1 else v⟩,
    ⟨("tests::plus_one", [], .num 2, some (.num 1)), "tests::plus_one",
      ⟨[], [], .num 2⟩, viewIntTargetDry fun v tgt => if v < tgt then v + 1 else v⟩],
    []⟩

theorem c3_loop_freedom_witness :
    (findPlanF 50 domA (.num 0) (.num 2) = some (.ok wA) ∧
      (wA.dag.map WorkUnit.id).Nodup) ∧
    (mkWorkId "a1" baseCtx (.num 0) ∈ w0C5.dag.map WorkUnit.id ∧
      tryTask emptyDomain 3 (.action "a1" baseCtx (pointerSetStr "a"))
          (.num 0) w0C5 0 = some (.error .loopDetected)) :=
  ⟨⟨rfl, c3_loop_freedom.1 50 domA (.num 0) (.num 2) wA rfl⟩,
    ⟨by decide,
      c3_loop_freedom.2 emptyDomain 2 "a1" baseCtx (pointerSetStr "a") (.num 0) w0C5 0
        (by decide)⟩⟩

theorem diffV_num_ne (p : List String) (a b : Int) (h : a ≠ b) :
    diffV p (.num a) (.num b) = [.replace p (.num b)] :=
  diffV_scalar p (.num a) (.num b) rfl rfl (by
    intro he
    exact h (ValueT.num.inj he))

/-- Evaluating a root-scoped `View<i32>`-with-target handler on a
numeric root document always succeeds with the diff of the update. -/
theorem viewIntTargetDry_root (f : Int → Int → Int) (k tgt : Int) :
    viewIntTargetDry f (.num k) ⟨[], [], .num tgt⟩ =
      .ok (diffV [] (.num k) (.num (f k tgt))) := rfl

/-- The action branch of `try_task` on a fresh id and a successful
dry-run appends the work unit and concatenates the pending patch. -/
theorem tryTask_action_ok (dm : DomainD) (fuel : Nat) (tid : String) (ctx : ContextC)
    (dry : ValueT → ContextC → Except TaskErr PatchL) (s : ValueT) (w : WorkflowW)
    (sl : Nat) (changes : PatchL)
    (hany : w.dag.any (fun u => decide (u.id = mkWorkId tid ctx s)) = false)
    (hdry : dry s ctx = .ok changes) (hc : ¬(sl = 0 ∧ changes = [])) :
    tryTask dm (fuel + 1) (.action tid ctx dry) s w sl =
      some (.ok ⟨⟨mkWorkId tid ctx s, tid, ctx, dry⟩ :: w.dag, w.pending ++ changes⟩) := by
  unfold tryTask
  simp only [hany, Bool.false_eq_true, if_false, hdry]
  rw [if_neg hc]

/-- The action branch of `try_task` at the top of the stack with an
empty dry-run patch fails with `ConditionFailed`. -/
theorem tryTask_action_condFailed (dm : DomainD) (fuel : Nat) (tid : String)
    (ctx : ContextC) (dry : ValueT → ContextC → Except TaskErr PatchL) (s : ValueT)
    (w : WorkflowW)
    (hany : w.dag.any (fun u => decide (u.id = mkWorkId tid ctx s)) = false)
    (hdry : dry s ctx = .ok []) :
    tryTask dm (fuel + 1) (.action tid ctx dry) s w 0 =
      some (.error .conditionFailed) := by
  unfold tryTask
  simp only [hany, Bool.false_eq_true, if_false, hdry]
  simp

/-- The work unit the buggy-pair search adds at counter value `k`. -/
def buggyUnit (k : Int) : WorkUnit :=
  ⟨("tests::buggy_plus_one", [], .num 2, some (.num k)), "tests::buggy_plus_one",
    ⟨[], [], .num 2⟩, viewIntTargetDry fun v tgt => if v < tgt then v - 1 else v⟩

/-- Invariant of the buggy-pair search: every unit in the DAG is a
buggy-plus-one unit recorded at a strictly larger counter value. -/
def BuggyDagOK (k : Int) (dag : List WorkUnit) : Prop :=
  ∀ u ∈ dag, ∃ j : Int, k < j ∧
    u.id = ("tests::buggy_plus_one", [], ValueT.num 2, some (ValueT.num j))

theorem buggy_intents : findJobsAt domBuggy [] =
    some ([], [mkIntent .update taskBuggyPlusOne, mkIntent .update taskMinusOne]) := rfl

/-- One candidate round of the buggy-pair search: `buggy_plus_one`
succeeds and pushes the decremented state, `minus_one` fails its
condition and is skipped. -/
theorem buggy_step (tf : Nat) (k : Int) (w : WorkflowW) (d : Nat) (stack : List Node)
    (hk : k ≤ 0) (hdag : BuggyDagOK k w.dag) (hpend : w.pending = []) :
    processIntents domBuggy (tf + 1) (.num k) w d ⟨[], [], .num 2⟩
      (.replace [] (.num 2))
      [mkIntent .update taskBuggyPlusOne, mkIntent .update taskMinusOne] stack =
    some (.ok ((ValueT.num (k - 1), ⟨buggyUnit k :: w.dag, []⟩, d + 1) :: stack)) := by
  have hwidB : mkWorkId "tests::buggy_plus_one" ⟨[], [], .num 2⟩ (.num k) =
      ("tests::buggy_plus_one", [], ValueT.num 2, some (ValueT.num k)) := rfl
  have hanyB : w.dag.any (fun u =>
      decide (u.id = mkWorkId "tests::buggy_plus_one" ⟨[], [], .num 2⟩ (.num k))) = false := by
    refine List.any_eq_false.mpr ?_
    intro u hu
    rcases hdag u hu with ⟨j, hkj, hid⟩
    rw [hwidB, hid]
    simp only [decide_eq_true_eq, Prod.mk.injEq]
    intro hcon
    have : j = k := ValueT.num.inj (Option.some_inj.mp hcon.2.2.2)
    omega
  have hdryB : viewIntTargetDry (fun v tgt => if v < tgt then v - 1 else v)
      (.num k) ⟨[], [], .num 2⟩ = .ok [.replace [] (.num (k - 1))] := by
    rw [viewIntTargetDry_root]
    have h2 : (if k < 2 then k - 1 else k) = k - 1 := if_pos (by omega)
    rw [h2, diffV_num_ne [] k (k - 1) (by omega)]
  have htryB : tryTask domBuggy (tf + 1)
      ((mkIntent .update taskBuggyPlusOne).task.withCtx ⟨[], [], .num 2⟩)
      (.num k) w 0 =
      some (.ok ⟨buggyUnit k :: w.dag, w.pending ++ [.replace [] (.num (k - 1))]⟩) :=
    tryTask_action_ok domBuggy tf "tests::buggy_plus_one" ⟨[], [], .num 2⟩
      (viewIntTargetDry fun v tgt => if v < tgt then v - 1 else v)
      (.num k) w 0 [.replace [] (.num (k - 1))] hanyB hdryB (by simp)
  have hanyM : w.dag.any (fun u =>
      decide (u.id = mkWorkId "tests::minus_one" ⟨[], [], .num 2⟩ (.num k))) = false := by
    refine List.any_eq_false.mpr ?_
    intro u hu
    rcases hdag u hu with ⟨j, _, hid⟩
    rw [hid]
    simp only [decide_eq_true_eq, Prod.mk.injEq, mkWorkId]
    intro hcon
    exact absurd hcon.1 (by decide)
  have hdryM : viewIntTargetDry (fun v tgt => if tgt < v then v - 1 else v)
      (.num k) ⟨[], [], .num 2⟩ = .ok [] := by
    rw [viewIntTargetDry_root]
    have h2 : (if (2 : Int) < k then k - 1 else k) = k := if_neg (by omega)
    rw [h2, diffV_self]
  have htryM : tryTask domBuggy (tf + 1)
      ((mkIntent .update taskMinusOne).task.withCtx ⟨[], [], .num 2⟩)
      (.num k) w 0 = some (.error .conditionFailed) :=
    tryTask_action_condFailed domBuggy tf "tests::minus_one" ⟨[], [], .num 2⟩
      (viewIntTargetDry fun v tgt => if tgt < v then v - 1 else v)
      (.num k) w hanyM hdryM
  unfold processIntents
  rw [if_pos (show intentFilter (PatchOp.replace [] (.num 2))
      (mkIntent Operation.update taskBuggyPlusOne).operation = true from rfl)]
  simp only [htryB]
  rw [hpend]
  simp only [List.nil_append]
  rw [if_neg (show ¬([PatchOp.replace [] (ValueT.num (k - 1))] = ([] : PatchL)) from by simp)]
  simp only [show applyPatch (ValueT.num k) [PatchOp.replace [] (.num (k - 1))] =
    .ok (.num (k - 1)) from rfl]
  unfold processIntents
  rw [if_pos (show intentFilter (PatchOp.replace [] (.num 2))
      (mkIntent Operation.update taskMinusOne).operation = true from rfl)]
  simp only [htryM]
  unfold processIntents
  rfl

/-- One full pop of the stack loop on the buggy pair with a below-cap
depth: the round pushes the decremented node and consumes one unit of
fuel. -/
theorem buggy_round (tf : Nat) (k : Int) (w : WorkflowW) (d : Nat) (rest : List Node)
    (hd : d < 256) (hk : k ≤ 0) (hdag : BuggyDagOK k w.dag) (hpend : w.pending = []) :
    findLoop domBuggy (.num 2) (tf + 1) ((.num k, w, d) :: rest) =
      findLoop domBuggy (.num 2) tf
        ((ValueT.num (k - 1), ⟨buggyUnit k :: w.dag, []⟩, d + 1) :: rest) := by
  have hops : processOps domBuggy (tf + 1) (.num 2) (.num k) w d
      [.replace [] (.num 2)] rest =
      some (.ok ((ValueT.num (k - 1), ⟨buggyUnit k :: w.dag, []⟩, d + 1) :: rest)) := by
    unfold processOps
    simp only [show (PatchOp.replace [] (ValueT.num 2)).path = [] from rfl, buggy_intents,
      show resolveV [] (ValueT.num 2) = Except.ok (ValueT.num 2) from rfl]
    rw [buggy_step tf k w d rest hk hdag hpend]
    unfold processOps
    rfl
  conv_lhs => unfold findLoop
  rw [if_neg (show ¬(256 ≤ d) from by omega)]
  simp only [diffV_num_ne [] k 2 (show k ≠ 2 from by omega), hops]

/-- Pushing the round's work unit preserves the buggy-DAG invariant at
the decremented counter. -/
theorem buggyDagOK_step (k : Int) (dag : List WorkUnit) (hdag : BuggyDagOK k dag) :
    BuggyDagOK (k - 1) (buggyUnit k :: dag) := by
  intro u hu
  rcases List.mem_cons.mp hu with h | h
  · exact ⟨k, by omega, by rw [h]; rfl⟩
  · rcases hdag u h with ⟨j, hj, hid⟩
    exact ⟨j, by omega, hid⟩

/-- With enough fuel, the buggy-pair search starting from a node at
depth `d = 256 - m` reaches the depth cap and fails `MaxDepthReached`. -/
theorem buggy_descend : ∀ (m tf : Nat) (k : Int) (w : WorkflowW) (d : Nat)
    (rest : List Node), d + m = 256 → m + 1 ≤ tf → k ≤ 0 → BuggyDagOK k w.dag →
    w.pending = [] →
    findLoop domBuggy (.num 2) tf ((.num k, w, d) :: rest) =
      some (.error .maxDepthReached)
  | 0, tf, k, w, d, rest, hdm, htf, _, _, _ => by
      obtain ⟨tf', rfl⟩ : ∃ t, tf = t + 1 := ⟨tf - 1, by omega⟩
      conv_lhs => unfold findLoop
      rw [if_pos (show 256 ≤ d from by omega)]
  | m + 1, tf, k, w, d, rest, hdm, htf, hk, hdag, hpend => by
      obtain ⟨tf', rfl⟩ : ∃ t, tf = t + 1 := ⟨tf - 1, by omega⟩
      rw [buggy_round tf' k w d rest (by omega) hk hdag hpend]
      exact buggy_descend m tf' (k - 1) ⟨buggyUnit k :: w.dag, []⟩ (d + 1) rest
        (by omega) (by omega) (by omega) (buggyDagOK_step k w.dag hdag) rfl

/-- A search stack every node of which is a buggy-pair node: a
non-positive numeric state, a DAG of buggy units recorded at strictly
larger counters, and no pending patch. -/
def BuggyStackOK (stack : List Node) : Prop :=
  ∀ n ∈ stack, ∃ k : Int, n.1 = ValueT.num k ∧ k ≤ 0 ∧
    BuggyDagOK k n.2.1.dag ∧ n.2.1.pending = []

/-- On the buggy pair, the stack loop never returns a workflow, at any
fuel: each round strictly decreases the state away from the target. -/
theorem buggy_never_ok : ∀ (fuel : Nat) (stack : List Node), BuggyStackOK stack →
    ∀ w', findLoop domBuggy (.num 2) fuel stack ≠ some (.ok w')
  | 0, _, _, _ => by
      intro h
      exact Option.noConfusion h
  | _ + 1, [], _, _ => by
      intro h
      exact Except.noConfusion (Option.some_inj.mp h)
  | fuel + 1, (s, w, d) :: rest, hstk, w' => by
      obtain ⟨k, hs, hk, hdag, hpend⟩ := hstk (s, w, d) (List.mem_cons_self _ _)
      subst hs
      by_cases hd : 256 ≤ d
      · intro h
        conv_lhs at h => unfold findLoop
        rw [if_pos hd] at h
        exact Except.noConfusion (Option.some_inj.mp h)
      · rw [buggy_round fuel k w d rest (by omega) hk hdag hpend]
        refine buggy_never_ok fuel _ ?_ w'
        intro n hn
        rcases List.mem_cons.mp hn with h | h
        · subst h
          exact ⟨k - 1, rfl, by omega, buggyDagOK_step k w.dag hdag, rfl⟩
        · exact hstk n (List.mem_cons_of_mem _ h)

/-- C4: (i) whenever the stack loop of `find_workflow` pops a node of
depth at least 256 it returns `MaxDepthReached`; (ii) on the reciprocal
buggy pair (state 0, target 2) `find_plan` never returns a workflow at
any fuel; (iii) on that pair, with fuel for at least 257 pops,
`find_plan` returns exactly the `MaxDepthReached` error. -/
theorem c4_depth_cap :
    (∀ (dm : DomainD) (tgt : ValueT) (fuel : Nat) (s : ValueT) (w : WorkflowW)
      (d : Nat) (rest : List Node), 256 ≤ d →
      findLoop dm tgt (fuel + 1) ((s, w, d) :: rest) =
        some (.error .maxDepthReached)) ∧
    (∀ (fuel : Nat) (w' : WorkflowW),
      findPlanF fuel domBuggy (.num 0) (.num 2) ≠ some (.ok w')) ∧
    (∀ fuel : Nat, 257 ≤ fuel →
      findPlanF fuel domBuggy (.num 0) (.num 2) =
        some (.error .maxDepthReached)) := by
  refine ⟨?_, ?_, ?_⟩
  · intro dm tgt fuel s w d rest hd
    conv_lhs => unfold findLoop
    rw [if_pos hd]
  · intro fuel w'
    refine buggy_never_ok fuel [(.num 0, emptyWorkflow, 0)] ?_ w'
    intro n hn
    rcases List.mem_cons.mp hn with h | h
    · subst h
      exact ⟨0, rfl, le_refl 0, fun u hu => absurd hu (List.not_mem_nil u), rfl⟩
    · exact absurd h (List.not_mem_nil n)
  · intro fuel hf
    exact buggy_descend 256 fuel 0 emptyWorkflow 0 [] rfl hf (le_refl 0)
      (fun u hu => absurd hu (List.not_mem_nil u)) rfl

theorem c4_depth_cap_witness :
    ((256 : Nat) ≤ 300 ∧
      findLoop domBuggy (.num 2) 1 [(.num 0, emptyWorkflow, 300)] =
        some (.error .maxDepthReached)) ∧
    findPlanF 257 domBuggy (.num 0) (.num 2) ≠ some (.ok emptyWorkflow) ∧
    ((257 : Nat) ≤ 257 ∧
      findPlanF 257 domBuggy (.num 0) (.num 2) =
        some (.error .maxDepthReached)) :=
  ⟨⟨by decide,
      c4_depth_cap.1 domBuggy (.num 2) 0 (.num 0) emptyWorkflow 300 [] (by decide)⟩,
    c4_depth_cap.2.1 257 emptyWorkflow,
    ⟨by decide, c4_depth_cap.2.2 257 (by decide)⟩⟩

/-- C1: planner soundness is violated. On `domMethod` from `stateC1`
toward `targetC1`, `find_plan` returns a 3-unit workflow, yet replaying
that workflow from the initial state yields a state whose diff against
the target is `[remove /n/2]`, not empty: the method branch of
`try_task` patches its scratch state with the whole accumulated pending
patch on top of a state that already includes it, so the plan
overshoots the target. -/
theorem c1_soundness_violated :
    planSize (findPlanF 50 domMethod stateC1 targetC1) = some (.ok 3) ∧
    planReplayDiff 50 domMethod stateC1 targetC1 =
      some (.ok (some [.remove ["n", "2"]])) ∧
    planReplayDiff 50 domMethod stateC1 targetC1 ≠ some (.ok (some [])) :=
  ⟨by decide, by decide, by decide⟩
